import Mathlib

/-!
# Verification of the `asn1_aper` Aligned-PER codec

Shallow embedding of the library's core (`src/decode.rs`, `src/encode.rs`,
`src/constraints.rs`, `src/integer.rs`, `src/bool.rs`, `src/null.rs`,
`src/sequence_of.rs`) into Lean, together with theorems settling the frozen
claims about it.

Machine integers are modelled as `Nat`/`Int` with explicit `% 2^w` at the
points where Rust performs a wrapping cast or a wrapping `u8`/`u16` shift.
Fallible Rust functions returning `Result` are modelled with `Except`;
paths on which the Rust code panics (failed `byteorder` assertions,
`BigEndian::read_int`/`write_uint` with an octet count outside `1..=8`)
are modelled by a dedicated `panicked` outcome.
-/

namespace Asn1Aper

/-- Bit masks from `src/constraints.rs`. -/
def LENGTH_DET_SHORT : Nat := 0x00
def LENGTH_DET_LONG : Nat := 0x80
def LENGTH_DET_FRAG : Nat := 0xC0
def LENGTH_MASK_SHORT : Nat := 0x7F
def LENGTH_MASK_LONG : Nat := 0x3F

/-- `Constraint` from `src/constraints.rs`: optional signed 64-bit bounds. -/
structure Constraint where
  min : Option Int
  max : Option Int
deriving DecidableEq, Repr

/-- `Constraints` from `src/constraints.rs`. -/
structure Constraints where
  value : Option Constraint
  size : Option Constraint
deriving DecidableEq, Repr

def UNCONSTRAINED : Constraints := ⟨none, none⟩

/-- `DecodeError` from `src/decode.rs`. -/
inductive DecodeError where
  | invalidChoice
  | malformedLength
  | malformedInt
  | missingSizeConstraint
  | missingValueConstraint
  | notEnoughBits
  | notImplemented
deriving DecidableEq, Repr

/-- `EncodeError` from `src/encode.rs`. -/
inductive EncodeError where
  | missingSizeConstraint
  | missingValueConstraint
  | notImplemented
  | writeError
deriving DecidableEq, Repr

/-- Rust `x as u8` on an `i64`: two's-complement truncation to 8 bits. -/
def i64ToU8 (x : Int) : Nat := (x % 256).toNat

/-- Rust `x as u64` on an `i64`: two's-complement reinterpretation. -/
def i64ToU64 (x : Int) : Nat := (x % (2 ^ 64 : Int)).toNat

/-- Rust `x as usize` on an `i64` (64-bit platform). -/
def i64ToUsize (x : Int) : Nat := (x % (2 ^ 64 : Int)).toNat

/-- Rust `x >> 8` on an `i64` is an arithmetic shift, i.e. floor division. -/
def i64Shr8 (x : Int) : Int := Int.fdiv x 256

/-- `ceil(log2 n)` on naturals, total, fuelled (structural so that the kernel
can evaluate it).  For `1 ≤ n < 2^53` this is exactly what the Rust source
computes with `(n as f64).log2().ceil() as usize` (the `f64` conversion is
exact in that range and `log2` of a non-power-of-two never rounds to an
integer there); for `n = 0` the Rust float pipeline also yields `0`
(`ceil(-inf) as usize = 0`). -/
def ceilLog2Aux : Nat → Nat → Nat
  | 0, _ => 0
  | fuel + 1, n => if n ≤ 1 then 0 else ceilLog2Aux fuel ((n + 1) / 2) + 1

def ceilLog2 (n : Nat) : Nat := ceilLog2Aux 128 n

/-! ## Decoder (`src/decode.rs`) -/

/-- `Decoder` from `src/decode.rs`: borrowed byte buffer plus bit cursor.
`len` is always `8 * data.len()` (established by `Decoder::new`), so we
keep it as a definition rather than a field. -/
structure Decoder where
  data : List Nat
  pos : Nat
deriving DecidableEq, Repr

/-- `Decoder::new`. -/
def Decoder.new (data : List Nat) : Decoder := ⟨data, 0⟩

/-- The `len` field set by `Decoder::new`: total bit length. -/
def Decoder.len (d : Decoder) : Nat := 8 * d.data.length

/-- The bit-extraction expression of `Decoder::read` (`src/decode.rs` lines
194-210): `l_bucket = pos / 8`, `h_bucket = (pos + n) / 8`,
`h_off = (pos + n) - h_bucket * 8`, then the three mask-and-shift branches.
`u8` shifts that can wrap are followed by `% 256` exactly where the Rust
`u8` arithmetic wraps.  `data[i]` is modelled with `getD _ 0`; under
`read`'s bounds check every access is in range. -/
def readVal (data : List Nat) (pos n : Nat) : Nat :=
  if pos / 8 = (pos + n) / 8 then
    ((data.getD (pos / 8) 0) &&&
        ((255 >>> (8 - n)) <<< (8 - ((pos + n) - ((pos + n) / 8) * 8))) % 256) >>>
      (8 - ((pos + n) - ((pos + n) / 8) * 8))
  else if pos / 8 < (pos + n) / 8 ∧ (pos + n) - ((pos + n) / 8) * 8 = 0 then
    (data.getD (pos / 8) 0) &&& (255 >>> (8 - n))
  else
    ((((data.getD (pos / 8) 0) &&& (255 >>> (8 - (n - ((pos + n) - ((pos + n) / 8) * 8))))) <<<
        ((pos + n) - ((pos + n) / 8) * 8)) % 256) |||
      (((data.getD ((pos + n) / 8) 0) &&&
          ((255 <<< (8 - ((pos + n) - ((pos + n) / 8) * 8))) % 256)) >>>
        (8 - ((pos + n) - ((pos + n) / 8) * 8)))

/-- `Decoder::read` from `src/decode.rs` (lines 186-213), n in `0..=8`. -/
def Decoder.read (d : Decoder) (n : Nat) : Except DecodeError (Nat × Decoder) :=
  if n = 0 then .ok (0, d)
  else if d.len < d.pos + n then .error .notEnoughBits
  else .ok (readVal d.data d.pos n, ⟨d.data, d.pos + n⟩)

/-- `Decoder::read_u8`: `read(8)` with the error mapped to `NotEnoughBits`
(the identity, since `read` only raises `NotEnoughBits`). -/
def Decoder.readU8 (d : Decoder) : Except DecodeError (Nat × Decoder) :=
  d.read 8

/-- The byte-reading loop of `Decoder::read_to_vec`. -/
def Decoder.readBytesLoop : Nat → Decoder → List Nat → Except DecodeError (List Nat × Decoder)
  | 0, d, acc => .ok (acc, d)
  | k + 1, d, acc =>
    match d.readU8 with
    | .error e => .error e
    | .ok (b, d') => Decoder.readBytesLoop k d' (acc ++ [b])

/-- `Decoder::read_to_vec` from `src/decode.rs` (lines 236-254).
`(len as f64 / 8.).ceil() as usize` is `(len + 7) / 8` (exact for any
representable `len`). -/
def Decoder.readToVec (d : Decoder) (content : List Nat) (len : Nat) :
    Except DecodeError (List Nat × Decoder) :=
  if len = 0 then .ok (content, d)
  else if d.len < d.pos + len then .error .notEnoughBits
  else if len < 8 then
    match d.read len with
    | .error e => .error e
    | .ok (b, d') => .ok (content ++ [b], d')
  else
    -- `num_bytes = (len as f64 / 8.).ceil() as usize`
    match Decoder.readBytesLoop ((len + 7) / 8) d content with
    | .error e => .error e
    | .ok (c, d') => .ok (c, ⟨d'.data, d'.pos - len % 8⟩)

/-- `Decoder::decode_length` from `src/decode.rs` (lines 257-271), exactly as
written: the first test is `val & LENGTH_DET_FRAG > 0`. -/
def Decoder.decodeLength (d : Decoder) : Except DecodeError (Nat × Decoder) :=
  match d.readU8 with
  | .error _ => .error .malformedLength
  | .ok (val, d1) =>
    if 0 < val &&& LENGTH_DET_FRAG then .error .notImplemented
    else if 0 < val &&& LENGTH_DET_LONG then
      let len := val &&& LENGTH_MASK_LONG
      match d1.readU8 with
      | .error _ => .error .malformedLength
      | .ok (v2, d2) => .ok ((len <<< 8) + v2, d2)
    else .ok (val &&& LENGTH_MASK_SHORT, d1)

/-- Outcome of a decoding computation: success, typed error, or Rust panic. -/
inductive DOut (α : Type) where
  | ok : α → Decoder → DOut α
  | err : DecodeError → DOut α
  | panicked : DOut α
deriving DecidableEq, Repr

/-- `byteorder::BigEndian::read_uint(buf, nbytes)`: big-endian unsigned value
of the first `nbytes` bytes; the crate asserts `1 <= nbytes <= 8` and
`nbytes <= buf.len()` and panics otherwise (`none`). -/
def readUintBE (buf : List Nat) (n : Nat) : Option Nat :=
  if 1 ≤ n ∧ n ≤ 8 ∧ n ≤ buf.length then
    some ((buf.take n).foldl (fun acc b => acc * 256 + b) 0)
  else none

/-- `byteorder::BigEndian::read_int(buf, nbytes)`: as `read_uint` but the
result is sign-extended from `8 * nbytes` bits. -/
def readIntBE (buf : List Nat) (n : Nat) : Option Int :=
  match readUintBE buf n with
  | none => none
  | some u =>
    some (if 2 ^ (8 * n - 1) ≤ u then (u : Int) - 2 ^ (8 * n) else (u : Int))

/-- `Decoder::decode_int` from `src/decode.rs` (lines 292-337). -/
def Decoder.decodeInt (d : Decoder) (min max : Option Int) : DOut Int :=
  match min, max with
  | some l, some h =>
    let range := h - l + 1
    let nBits := ceilLog2 range.toNat
    if nBits < 8 then
      match d.read nBits with
      | .error e => .err e
      | .ok (val, d1) => .ok ((val : Int) + l) d1
    else if nBits ≤ 16 then
      match d.readU8 with
      | .error e => .err e
      | .ok (b1, d1) =>
        if nBits ≠ 8 then
          match d1.readU8 with
          | .error e => .err e
          | .ok (b2, d2) =>
            -- u16 arithmetic: `(n_val as u16) + (val << 8)` wraps mod 2^16
            .ok (((b2 + ((b1 <<< 8) % 65536)) % 65536 : Nat) + l) d2
        else .ok ((b1 : Int) + l) d1
    else
      match d.decodeLength with
      | .error e => .err e
      | .ok (len, d1) =>
        if 8 < len then .err .notImplemented
        else
          match d1.readToVec [] (len * 8) with
          | .error e => .err e
          | .ok (content, d2) =>
            match readUintBE content len with
            | none => .panicked
            | some u =>
              let val := (u : Int) + l
              if val < l ∨ h < val then .err .malformedInt
              else .ok val d2
  | _, _ =>
    match d.decodeLength with
    | .error e => .err e
    | .ok (len, d1) =>
      match d1.readToVec [] (len * 8) with
      | .error e => .err e
      | .ok (content, d2) =>
        match readIntBE content len with
        | none => .panicked
        | some i =>
          match min with
          | some m => .ok (i + m) d2
          | none => .ok i d2

/-! ## Encoder (`src/encode.rs`) -/

/-- `Encoder` from `src/encode.rs`: byte vector plus right-padding count. -/
structure Encoder where
  bytes : List Nat
  rPadding : Nat
deriving DecidableEq, Repr

/-- `Encoder::new`. -/
def Encoder.new : Encoder := ⟨[], 0⟩

/-- Modelled from the spec: `shift_bytes_left` lives in `src/utils.rs`,
which is absent from the sources; spec §4.1 defines it: for `0 ≤ k ≤ 7`
shift the byte sequence left by `k` bits, feeding the high `k` bits of
byte `i+1` into the low `k` bits of byte `i`; the low `k` bits of the
last byte become zero. -/
def shiftBytesLeft : List Nat → Nat → List Nat
  | [], _ => []
  | [b], k => [(b <<< k) % 256]
  | b :: c :: rest, k => (((b <<< k) % 256) ||| (c >>> (8 - k))) :: shiftBytesLeft (c :: rest) k

/-- `Encoder::append` from `src/encode.rs` (lines 140-174), mirroring the
source's branch structure.  `self.bytes[n-1] |= ...` is modelled via
`dropLast`/`getLastD`. -/
def Encoder.append (e other : Encoder) : Encoder :=
  let bytes := other.bytes
  let rPadding := other.rPadding
  if e.bytes.length = 0 then ⟨bytes, rPadding⟩
  else if bytes.length = 0 then e
  else if 0 < e.rPadding then
    let mask := ((255 <<< rPadding) : Nat) % 256
    let newLast := (e.bytes.getLastD 0) ||| (((bytes.headD 0) &&& mask) >>> (8 - e.rPadding))
    let shifted := shiftBytesLeft bytes e.rPadding
    let lenFirst := 8 - rPadding
    if lenFirst ≤ e.rPadding then
      ⟨e.bytes.dropLast ++ [newLast] ++ shifted.tail, e.rPadding - lenFirst⟩
    else
      ⟨e.bytes.dropLast ++ [newLast] ++ shifted, e.rPadding⟩
  else
    ⟨e.bytes ++ bytes, rPadding⟩

/-- `encode_length` from `src/encode.rs` (lines 198-213), exactly as written:
the long-form branch accepts every `len < 65535` and masks the upper byte
with `LENGTH_MASK_LONG`. -/
def encodeLength (len : Nat) : Except EncodeError Encoder :=
  if len < 128 then
    .ok ⟨[((len % 256) &&& LENGTH_MASK_SHORT) ||| LENGTH_DET_SHORT], 0⟩
  else if len < 65535 then
    let upper := (len >>> 8) % 256
    let lower := len % 256
    .ok ⟨[(upper &&& LENGTH_MASK_LONG) ||| LENGTH_DET_LONG, lower], 0⟩
  else .error .notImplemented

/-- Outcome of an encoding computation: success, typed error, or Rust panic. -/
inductive EOut where
  | ok : Encoder → EOut
  | err : EncodeError → EOut
  | panicked : EOut
deriving DecidableEq, Repr

/-- Big-endian bytes of `v` on exactly `n` octets (`v < 2^(8n)`). -/
def bytesOfBE : Nat → Nat → List Nat
  | _, 0 => []
  | v, n + 1 => (v / 2 ^ (8 * n)) % 256 :: bytesOfBE (v % 2 ^ (8 * n)) n

/-- `byteorder`'s `write_uint::<BigEndian>(v, nbytes)` into a `Vec`: panics
(`none`) unless `pack_size(v) <= nbytes <= 8`, i.e. unless
`1 ≤ nbytes ≤ 8` and `v < 2^(8*nbytes)`; the `io::Result` error path is
unreachable on a growable vector. -/
def writeUintBE (v : Nat) (n : Nat) : Option (List Nat) :=
  if 1 ≤ n ∧ n ≤ 8 ∧ v < 2 ^ (8 * n) then some (bytesOfBE v n) else none

/-- `encode_int` from `src/encode.rs` (lines 233-284).  In the unconstrained
and semi-constrained branch the Rust code computes
`(value as f64).log2().ceil() as usize`, which is `ceilLog2 value.toNat`
for `value > 0` and `0` for `value ≤ 0` (`log2` of a non-positive float is
`NaN`/`-inf`, and those convert to `0usize`). -/
def encodeInt (value : Int) (min max : Option Int) : EOut :=
  match min, max with
  | some l, some h =>
    let v := value - l
    let range := h - l + 1
    let nBits := ceilLog2 range.toNat
    if nBits < 8 then
      .ok ⟨[((i64ToU8 v) <<< (8 - nBits)) % 256], 8 - nBits⟩
    else if nBits ≤ 16 then
      let bytes := if 8 < nBits then [i64ToU8 (i64Shr8 v), i64ToU8 v] else [i64ToU8 v]
      .ok ⟨bytes, 0⟩
    else
      let len := (nBits + 7) / 8
      match encodeLength len with
      | .error e => .err e
      | .ok enc =>
        match writeUintBE (i64ToU64 v) len with
        | none => .panicked
        | some bs => .ok (enc.append ⟨bs, 0⟩)
  | _, _ =>
    let nBits := if 0 < value then ceilLog2 value.toNat else 0
    let len := (nBits + 7) / 8
    match encodeLength len with
    | .error e => .err e
    | .ok enc =>
      let off := match min with
        | some m => value - m
        | none => value
      match writeUintBE (i64ToU64 off) len with
      | none => .panicked
      | some bs => .ok (enc.append ⟨bs, 0⟩)

/-! ## Primitive adapters -/

/-- `bool::to_aper` (`src/bool.rs`): one byte `(b as u8) << 7`, padding 7. -/
def boolToAper (b : Bool) : Encoder := ⟨[(if b then 1 else 0) <<< 7], 7⟩

/-- `bool::from_aper` (`src/bool.rs`): `read(1)`, nonzero is `true`. -/
def boolFromAper (d : Decoder) : DOut Bool :=
  match d.read 1 with
  | .error e => .err e
  | .ok (v, d') => .ok (0 < v) d'

/-- `()::to_aper` (`src/null.rs`): the empty encoder. -/
def nullToAper : Encoder := Encoder.new

/-- `()::from_aper` (`src/null.rs`): reads nothing. -/
def nullFromAper (d : Decoder) : DOut Unit := .ok () d

/-- Rust `val as i8` of an `i64` (used by `i8::from_aper`). -/
def i64ToI8 (x : Int) : Int := (x + 128) % 256 - 128

/-- Rust `val as i16`. -/
def i64ToI16 (x : Int) : Int := (x + 2 ^ 15) % 2 ^ 16 - 2 ^ 15

/-- Rust `val as i32`. -/
def i64ToI32 (x : Int) : Int := (x + 2 ^ 31) % 2 ^ 32 - 2 ^ 31

/-- Rust `val as u16`. -/
def i64ToU16 (x : Int) : Int := x % 2 ^ 16

/-- Rust `val as u32`. -/
def i64ToU32 (x : Int) : Int := x % 2 ^ 32

/-- The `int_impl!` instances (`src/integer.rs`): `to_aper` is
`encode_int(v, Some(MIN), Some(MAX))` for the type's bounds. -/
def intToAper (tyMin tyMax v : Int) : EOut := encodeInt v (some tyMin) (some tyMax)

/-- The `int_impl!` decode side: `decode_int(Some(MIN), Some(MAX))` with a
final `as $t` cast. -/
def intFromAper (tyMin tyMax : Int) (cast : Int → Int) (d : Decoder) : DOut Int :=
  match d.decodeInt (some tyMin) (some tyMax) with
  | .ok v d' => .ok (cast v) d'
  | .err e => .err e
  | .panicked => .panicked

/-! ## `Vec<T>` (`src/sequence_of.rs`), instantiated at `T = u8`
(`u8::to_aper`/`from_aper` ignore the constraints passed to them, so the
per-element constraint plumbing is faithful even though it is not
materialised here). -/

/-- The element-encoding fold of `Vec::<u8>::to_aper`
(`enc.append(&x.to_aper(..))` for each element). -/
def vecU8EncodeElems : List Int → Encoder → EOut
  | [], enc => .ok enc
  | x :: rest, enc =>
    match intToAper 0 255 x with
    | .ok e => vecU8EncodeElems rest (enc.append e)
    | .err e => .err e
    | .panicked => .panicked

/-- `Vec::<u8>::to_aper` (`src/sequence_of.rs` lines 18-28): always starts
with `encode_length(self.len())`, whatever the constraints say. -/
def vecU8ToAper (xs : List Int) (_constraints : Constraints) : EOut :=
  match encodeLength xs.length with
  | .error e => .err e
  | .ok enc => vecU8EncodeElems xs enc

/-- The element-decoding loop of `Vec::<u8>::from_aper`. -/
def vecU8DecodeElems : Nat → Decoder → List Int → DOut (List Int)
  | 0, d, acc => .ok acc d
  | k + 1, d, acc =>
    match intFromAper 0 255 (fun x => x % 256) d with
    | .ok v d' => vecU8DecodeElems k d' (acc ++ [v])
    | .err e => .err e
    | .panicked => .panicked

/-- `Vec::<u8>::from_aper` (`src/sequence_of.rs` lines 38-80). -/
def vecU8FromAper (d : Decoder) (constraints : Constraints) : DOut (List Int) :=
  match constraints.size with
  | none => .err .missingSizeConstraint
  | some szConstr =>
    let minLen := match szConstr.min with
      | some m => i64ToUsize m
      | none => 0
    let maxLen := match szConstr.max with
      | some m => i64ToUsize m
      | none => 0
    if 65535 ≤ maxLen then .err .notImplemented
    else
      match (if maxLen = minLen then .ok (maxLen, d) else d.decodeLength :
          Except DecodeError (Nat × Decoder)) with
      | .error e => .err e
      | .ok (len, d1) => vecU8DecodeElems len d1 []

/-! ## Bit-string semantics (for stating the claims) -/

/-- The 8 bits of a byte, most significant first. -/
def bitsOfByte (b : Nat) : List Bool :=
  [b.testBit 7, b.testBit 6, b.testBit 5, b.testBit 4,
   b.testBit 3, b.testBit 2, b.testBit 1, b.testBit 0]

/-- The bit stream of a byte buffer, MSB-first within each byte. -/
def bytesBits (bs : List Nat) : List Bool := (bs.map bitsOfByte).flatten

/-- The natural number encoded by a bit list, MSB first. -/
def natOfBits (l : List Bool) : Nat :=
  l.foldl (fun a b => 2 * a + (if b then 1 else 0)) 0

/-- The bit string held by an encoder: all bits of its bytes except the
final `rPadding` ones. -/
def encoderBits (e : Encoder) : List Bool :=
  (bytesBits e.bytes).take (8 * e.bytes.length - e.rPadding)

/-- The invariant on encoders (spec §3 "Encoder state"): `r_padding ∈ [0,7]`,
every byte is a `u8`, and the low `r_padding` bits of the last byte are
zero. -/
def EncInv (e : Encoder) : Prop :=
  e.rPadding ≤ 7 ∧ (∀ b ∈ e.bytes, b < 256) ∧
    (e.bytes.getLastD 0) % 2 ^ e.rPadding = 0

instance (e : Encoder) : Decidable (EncInv e) := by
  unfold EncInv; infer_instance

instance {ε α : Type} [DecidableEq ε] [DecidableEq α] : DecidableEq (Except ε α) := fun a b =>
  match a, b with
  | .ok x, .ok y =>
    if h : x = y then isTrue (by rw [h]) else isFalse (by intro he; cases he; exact h rfl)
  | .error x, .error y =>
    if h : x = y then isTrue (by rw [h]) else isFalse (by intro he; cases he; exact h rfl)
  | .ok _, .error _ => isFalse (by intro he; cases he)
  | .error _, .ok _ => isFalse (by intro he; cases he)

/-! ## Bit-stream lemmas -/

theorem length_bitsOfByte (b : Nat) : (bitsOfByte b).length = 8 := rfl

theorem bytesBits_nil : bytesBits [] = [] := rfl

theorem bytesBits_cons (b : Nat) (bs : List Nat) :
    bytesBits (b :: bs) = bitsOfByte b ++ bytesBits bs := by
  simp [bytesBits]

theorem bytesBits_append (xs ys : List Nat) :
    bytesBits (xs ++ ys) = bytesBits xs ++ bytesBits ys := by
  simp [bytesBits]

theorem length_bytesBits (bs : List Nat) : (bytesBits bs).length = 8 * bs.length := by
  induction bs with
  | nil => rfl
  | cons b bs ih => rw [bytesBits_cons]; simp [ih, length_bitsOfByte]; omega

theorem bytesBits_drop (q : Nat) (bs : List Nat) :
    (bytesBits bs).drop (8 * q) = bytesBits (bs.drop q) := by
  induction q generalizing bs with
  | zero => simp
  | succ q ih =>
    cases bs with
    | nil => simp [bytesBits_nil]
    | cons b bs =>
      rw [bytesBits_cons, show 8 * (q + 1) = 8 + 8 * q by ring,
        show (8 : Nat) + 8 * q = (bitsOfByte b).length + 8 * q from by rw [length_bitsOfByte],
        List.drop_append, ih]
      simp

theorem natOfBits_nil : natOfBits [] = 0 := rfl

theorem natOfBits_foldl (l : List Bool) : ∀ a : Nat,
    l.foldl (fun x b => 2 * x + (if b then 1 else 0)) a =
      a * 2 ^ l.length + l.foldl (fun x b => 2 * x + (if b then 1 else 0)) 0 := by
  induction l with
  | nil => intro a; simp
  | cons x l ih =>
    intro a
    rw [List.foldl_cons, List.foldl_cons, ih (2 * a + (if x then 1 else 0)),
      ih (2 * 0 + (if x then 1 else 0))]
    simp only [List.length_cons, pow_succ]
    cases x <;> simp <;> ring

theorem natOfBits_append (xs ys : List Bool) :
    natOfBits (xs ++ ys) = natOfBits xs * 2 ^ ys.length + natOfBits ys := by
  unfold natOfBits
  rw [List.foldl_append, natOfBits_foldl]

theorem natOfBits_lt (l : List Bool) : natOfBits l < 2 ^ l.length := by
  induction l with
  | nil => simp [natOfBits]
  | cons x l ih =>
    have h : natOfBits (x :: l) = (if x then 1 else 0) * 2 ^ l.length + natOfBits l := by
      have h2 := natOfBits_append [x] l
      simpa [natOfBits] using h2
    rw [h]
    simp only [List.length_cons, pow_succ]
    cases x <;> simp <;> omega

theorem natOfBits_split (l : List Bool) (n : Nat) :
    natOfBits l = natOfBits (l.take n) * 2 ^ (l.length - n) + natOfBits (l.drop n) := by
  conv_lhs => rw [← List.take_append_drop n l]
  rw [natOfBits_append]
  simp

theorem natOfBits_take (l : List Bool) (n : Nat) :
    natOfBits (l.take n) = natOfBits l / 2 ^ (l.length - n) := by
  have hlen : (l.drop n).length = l.length - n := by simp
  have hlt : natOfBits (l.drop n) < 2 ^ (l.length - n) := by
    have h2 := natOfBits_lt (l.drop n); rwa [hlen] at h2
  rw [natOfBits_split l n, Nat.add_comm,
    Nat.add_mul_div_right _ _ (Nat.pos_pow_of_pos _ (by norm_num)),
    Nat.div_eq_of_lt hlt, Nat.zero_add]

theorem natOfBits_drop (l : List Bool) (n : Nat) :
    natOfBits (l.drop n) = natOfBits l % 2 ^ (l.length - n) := by
  have hlen : (l.drop n).length = l.length - n := by simp
  have hlt : natOfBits (l.drop n) < 2 ^ (l.length - n) := by
    have h2 := natOfBits_lt (l.drop n); rwa [hlen] at h2
  rw [natOfBits_split l n, Nat.add_comm, Nat.add_mul_mod_self_right, Nat.mod_eq_of_lt hlt]

set_option maxRecDepth 4000 in
theorem natOfBits_bitsOfByte : ∀ b : Nat, b < 256 → natOfBits (bitsOfByte b) = b := by
  decide

/-- `(b &&& (m <<< s)) >>> s = (b >>> s) &&& m`: shifting commutes past an
AND with a shifted mask. -/
theorem and_shiftLeft_shiftRight (b m s : Nat) :
    (b &&& (m <<< s)) >>> s = (b >>> s) &&& m := by
  apply Nat.eq_of_testBit_eq
  intro i
  simp [Nat.testBit_shiftLeft, Nat.testBit_shiftRight, Nat.testBit_and]

theorem shiftRight_255 : ∀ n : Nat, n ≤ 8 → 255 >>> (8 - n) = 2 ^ n - 1 := by
  decide

theorem shiftLeft_255_mod : ∀ t : Nat, t ≤ 8 → (255 <<< t) % 256 = (2 ^ (8 - t) - 1) <<< t := by
  decide

theorem getD_eq_getElem' (l : List Nat) (n : Nat) (h : n < l.length) : l.getD n 0 = l[n] := by
  simp [List.getD_eq_getElem?_getD, List.getElem?_eq_getElem h]

/-- Splitting the bit stream of a buffer at byte `q`, bit `r`. -/
theorem bytesBits_drop_decomp (data : List Nat) (q r : Nat) (hq : q < data.length) (hr : r ≤ 8) :
    (bytesBits data).drop (8 * q + r) =
      (bitsOfByte (data.getD q 0)).drop r ++ bytesBits (data.drop (q + 1)) := by
  have h1 : (bytesBits data).drop (8 * q + r) = ((bytesBits data).drop (8 * q)).drop r := by
    rw [List.drop_drop]
  rw [h1, bytesBits_drop, List.drop_eq_getElem_cons hq, bytesBits_cons,
    List.drop_append_of_le_length (by rw [length_bitsOfByte]; exact hr),
    getD_eq_getElem' data q hq]

/-- Correctness of the bit-extraction of `Decoder::read`: under the bounds
check, all three mask-and-shift branches return exactly the `n` bits of the
stream starting at `pos`, right-justified. -/
theorem readVal_spec (data : List Nat) (pos n : Nat) (h1 : 1 ≤ n) (hn : n ≤ 8)
    (hb : ∀ b ∈ data, b < 256) (hle : pos + n ≤ 8 * data.length) :
    readVal data pos n = natOfBits (((bytesBits data).drop pos).take n) := by
  have hq : pos / 8 < data.length := by omega
  have hpos : 8 * (pos / 8) + pos % 8 = pos := by omega
  have hr8 : pos % 8 < 8 := by omega
  have hbq : data.getD (pos / 8) 0 < 256 := by
    rw [getD_eq_getElem' data _ hq]
    exact hb _ (List.getElem_mem hq)
  have hrhs : ((bytesBits data).drop pos).take n =
      ((bitsOfByte (data.getD (pos / 8) 0)).drop (pos % 8) ++
        bytesBits (data.drop (pos / 8 + 1))).take n := by
    conv_lhs => rw [← hpos]
    rw [bytesBits_drop_decomp data (pos / 8) (pos % 8) hq (by omega)]
  have hdroplen : ((bitsOfByte (data.getD (pos / 8) 0)).drop (pos % 8)).length = 8 - pos % 8 := by
    simp [length_bitsOfByte]
  rcases Nat.lt_or_ge (pos % 8 + n) 8 with hA | hA'
  · -- intra-byte branch: `l_bucket = h_bucket`
    have hiq : pos / 8 = (pos + n) / 8 := by omega
    have hoff : (pos + n) - ((pos + n) / 8) * 8 = pos % 8 + n := by omega
    simp only [readVal, if_pos hiq, hoff]
    rw [shiftRight_255 n hn]
    have hmask : ((2 ^ n - 1) <<< (8 - (pos % 8 + n))) % 256 =
        (2 ^ n - 1) <<< (8 - (pos % 8 + n)) := by
      apply Nat.mod_eq_of_lt
      rw [Nat.shiftLeft_eq]
      calc (2 ^ n - 1) * 2 ^ (8 - (pos % 8 + n))
          < 2 ^ n * 2 ^ (8 - (pos % 8 + n)) :=
            mul_lt_mul_of_pos_right
              (Nat.sub_lt (Nat.pos_pow_of_pos _ (by norm_num)) (by norm_num))
              (Nat.pos_pow_of_pos _ (by norm_num))
        _ = 2 ^ (n + (8 - (pos % 8 + n))) := by rw [← pow_add]
        _ ≤ 2 ^ 8 := Nat.pow_le_pow_right (by norm_num) (by omega)
    rw [hmask, and_shiftLeft_shiftRight, Nat.and_pow_two_sub_one_eq_mod,
      Nat.shiftRight_eq_div_pow]
    rw [hrhs, List.take_append_of_le_length (by rw [hdroplen]; omega),
      natOfBits_take _ n, hdroplen, natOfBits_drop _ (pos % 8), length_bitsOfByte,
      natOfBits_bitsOfByte _ hbq]
    have hsplit : (2 : Nat) ^ (8 - pos % 8) = 2 ^ (8 - pos % 8 - n) * 2 ^ n := by
      rw [← pow_add]; congr 1; omega
    rw [hsplit, Nat.mod_mul_right_div_self,
      show (8 : Nat) - (pos % 8 + n) = 8 - pos % 8 - n from by omega]
  rcases Nat.eq_or_lt_of_le hA' with hB | hC
  · -- byte-boundary branch: `h_off = 0`
    have hne : ¬(pos / 8 = (pos + n) / 8) := by omega
    have hcond : pos / 8 < (pos + n) / 8 ∧ (pos + n) - ((pos + n) / 8) * 8 = 0 := by
      constructor <;> omega
    simp only [readVal, if_neg hne, if_pos hcond]
    rw [shiftRight_255 n hn, Nat.and_pow_two_sub_one_eq_mod]
    rw [hrhs, List.take_append_of_le_length (by rw [hdroplen]; omega),
      List.take_of_length_le (by rw [hdroplen]; omega),
      natOfBits_drop _ (pos % 8), length_bitsOfByte, natOfBits_bitsOfByte _ hbq,
      show (8 : Nat) - pos % 8 = n from by omega]
  · -- cross-byte branch
    have hne : ¬(pos / 8 = (pos + n) / 8) := by omega
    have hcond : ¬(pos / 8 < (pos + n) / 8 ∧ (pos + n) - ((pos + n) / 8) * 8 = 0) := by
      rintro ⟨-, h0⟩; omega
    have hoff : (pos + n) - ((pos + n) / 8) * 8 = pos % 8 + n - 8 := by omega
    have hhb : (pos + n) / 8 = pos / 8 + 1 := by omega
    have hq2 : pos / 8 + 1 < data.length := by omega
    have hbc : data.getD (pos / 8 + 1) 0 < 256 := by
      rw [getD_eq_getElem' data _ hq2]
      exact hb _ (List.getElem_mem hq2)
    simp only [readVal]
    rw [if_neg hne, if_neg hcond, hoff, hhb]
    have hno : n - (pos % 8 + n - 8) = 8 - pos % 8 := by omega
    rw [hno, shiftRight_255 (8 - pos % 8) (by omega), Nat.and_pow_two_sub_one_eq_mod]
    have hhi : ((data.getD (pos / 8) 0 % 2 ^ (8 - pos % 8)) <<< (pos % 8 + n - 8)) % 256 =
        2 ^ (pos % 8 + n - 8) * (data.getD (pos / 8) 0 % 2 ^ (8 - pos % 8)) := by
      rw [Nat.shiftLeft_eq]
      rw [Nat.mod_eq_of_lt]
      · ring
      calc data.getD (pos / 8) 0 % 2 ^ (8 - pos % 8) * 2 ^ (pos % 8 + n - 8)
          < 2 ^ (8 - pos % 8) * 2 ^ (pos % 8 + n - 8) := by
            exact mul_lt_mul_of_pos_right (Nat.mod_lt _ (Nat.pos_pow_of_pos _ (by norm_num)))
              (Nat.pos_pow_of_pos _ (by norm_num))
        _ = 2 ^ (8 - pos % 8 + (pos % 8 + n - 8)) := by rw [← pow_add]
        _ ≤ 2 ^ 8 := Nat.pow_le_pow_right (by norm_num) (by omega)
    rw [hhi]
    rw [shiftLeft_255_mod (8 - (pos % 8 + n - 8)) (by omega),
      show 8 - (8 - (pos % 8 + n - 8)) = pos % 8 + n - 8 by omega,
      and_shiftLeft_shiftRight, Nat.and_pow_two_sub_one_eq_mod, Nat.shiftRight_eq_div_pow]
    have hloLT : data.getD (pos / 8 + 1) 0 / 2 ^ (8 - (pos % 8 + n - 8)) <
        2 ^ (pos % 8 + n - 8) := by
      apply Nat.div_lt_of_lt_mul
      calc data.getD (pos / 8 + 1) 0 < 256 := hbc
        _ = 2 ^ (8 - (pos % 8 + n - 8)) * 2 ^ (pos % 8 + n - 8) := by
          rw [← pow_add, show 8 - (pos % 8 + n - 8) + (pos % 8 + n - 8) = 8 from by omega]
          norm_num
    rw [Nat.mod_eq_of_lt hloLT, ← Nat.mul_add_lt_is_or hloLT]
    -- right-hand side
    have hdec2 : bytesBits (data.drop (pos / 8 + 1)) =
        bitsOfByte (data.getD (pos / 8 + 1) 0) ++ bytesBits (data.drop (pos / 8 + 2)) := by
      rw [List.drop_eq_getElem_cons hq2, bytesBits_cons, getD_eq_getElem' data _ hq2]
    rw [hrhs, hdec2, List.take_append_eq_append_take,
      List.take_of_length_le (by rw [hdroplen]; omega), hdroplen,
      List.take_append_of_le_length (by rw [length_bitsOfByte]; omega),
      natOfBits_append, natOfBits_drop _ (pos % 8), length_bitsOfByte,
      natOfBits_bitsOfByte _ hbq, natOfBits_take _ (n - (8 - pos % 8)), length_bitsOfByte,
      natOfBits_bitsOfByte _ hbc,
      show ((bitsOfByte (data.getD (pos / 8 + 1) 0)).take (n - (8 - pos % 8))).length =
        n - (8 - pos % 8) from by rw [List.length_take, length_bitsOfByte]; omega]
    rw [show n - (8 - pos % 8) = pos % 8 + n - 8 by omega]
    ring

/-- Full specification of `Decoder::read` for well-formed states. -/
theorem read_spec (d : Decoder) (n : Nat) (hn : n ≤ 8) (hwf : d.pos ≤ d.len)
    (hb : ∀ b ∈ d.data, b < 256) :
    d.read n = (if d.len < d.pos + n then .error .notEnoughBits
      else .ok (natOfBits (((bytesBits d.data).drop d.pos).take n), ⟨d.data, d.pos + n⟩)) := by
  unfold Decoder.read
  by_cases h0 : n = 0
  · subst h0
    rw [if_pos rfl, if_neg (by omega), List.take_zero]
    rfl
  · rw [if_neg h0]
    by_cases hlt : d.len < d.pos + n
    · rw [if_pos hlt, if_pos hlt]
    · rw [if_neg hlt, if_neg hlt,
        readVal_spec d.data d.pos n (by omega) hn hb (by unfold Decoder.len at hlt; omega)]

/-- The value returned by a successful `read n` fits in `n` bits. -/
theorem readVal_lt (data : List Nat) (pos n : Nat) (h1 : 1 ≤ n) (hn : n ≤ 8)
    (hb : ∀ b ∈ data, b < 256) (hle : pos + n ≤ 8 * data.length) :
    readVal data pos n < 2 ^ n := by
  rw [readVal_spec data pos n h1 hn hb hle]
  calc natOfBits (((bytesBits data).drop pos).take n)
      < 2 ^ (((bytesBits data).drop pos).take n).length := natOfBits_lt _
    _ ≤ 2 ^ n := Nat.pow_le_pow_right (by norm_num) (List.length_take_le _ _)

/-! ## Helper lemmas -/

theorem Decoder.read_ok_dest {d : Decoder} {n v : Nat} {d' : Decoder}
    (h : d.read n = .ok (v, d')) : d' = ⟨d.data, d.pos + n⟩ := by
  unfold Decoder.read at h
  split at h
  · cases h; next hn => simp [hn]
  · split at h
    · cases h
    · cases h; rfl

theorem Decoder.readBytesLoop_ok_dest :
    ∀ (k : Nat) (d : Decoder) (acc out : List Nat) (d' : Decoder),
      Decoder.readBytesLoop k d acc = .ok (out, d') →
      out.length = acc.length + k ∧ d'.data = d.data ∧ d'.pos = d.pos + 8 * k := by
  intro k
  induction k with
  | zero =>
    intro d acc out d' h
    cases h
    simp
  | succ k ih =>
    intro d acc out d' h
    unfold Decoder.readBytesLoop at h
    unfold Decoder.readU8 at h
    cases hr : d.read 8 with
    | error e => rw [hr] at h; cases h
    | ok p =>
      obtain ⟨b, d1⟩ := p
      rw [hr] at h
      have hd1 := Decoder.read_ok_dest hr
      obtain ⟨h1, h2, h3⟩ := ih d1 (acc ++ [b]) out d' h
      subst hd1
      refine ⟨by simp at h1 ⊢; omega, h2, by simp [h3]; omega⟩

/-- If `ceilLog2Aux` did not exhaust its fuel, its result is an upper
log-bound. -/
theorem ceilLog2Aux_spec : ∀ fuel r : Nat, ceilLog2Aux fuel r < fuel →
    r ≤ 2 ^ ceilLog2Aux fuel r := by
  intro fuel
  induction fuel with
  | zero => intro r h; omega
  | succ fuel ih =>
    intro r h
    by_cases hr1 : r ≤ 1
    · unfold ceilLog2Aux
      rw [if_pos hr1]
      simpa using hr1
    · unfold ceilLog2Aux at h ⊢
      rw [if_neg hr1] at h ⊢
      have hA : ceilLog2Aux fuel ((r + 1) / 2) < fuel := by omega
      have h2 := ih ((r + 1) / 2) hA
      rw [pow_succ]
      omega

theorem ceilLog2_le_pow (r : Nat) (h : ceilLog2 r < 128) : r ≤ 2 ^ ceilLog2 r :=
  ceilLog2Aux_spec 128 r h

/-! ## C9: `Decoder::read` -/

/-- **C9** (confirmed): for every well-formed decoder state (`pos ≤ len`,
`u8` buffer contents) and every `n ≤ 8`, `read n` fails with
`NotEnoughBits` exactly when `pos + n > len`; on success it returns the
next `n` bits of the stream right-justified in one octet (high bits zero,
i.e. the value is `< 2^n`) and advances `pos` by exactly `n`. -/
theorem c9_read_spec (d : Decoder) (n : Nat) (hn : n ≤ 8) (hwf : d.pos ≤ d.len)
    (hb : ∀ b ∈ d.data, b < 256) :
    (d.len < d.pos + n → d.read n = .error .notEnoughBits) ∧
    (d.pos + n ≤ d.len →
      d.read n = .ok (natOfBits (((bytesBits d.data).drop d.pos).take n), ⟨d.data, d.pos + n⟩) ∧
      natOfBits (((bytesBits d.data).drop d.pos).take n) < 2 ^ n) := by
  have h := read_spec d n hn hwf hb
  constructor
  · intro hlt
    rw [h, if_pos hlt]
  · intro hle
    rw [h, if_neg (by omega)]
    refine ⟨rfl, ?_⟩
    calc natOfBits (((bytesBits d.data).drop d.pos).take n)
        < 2 ^ (((bytesBits d.data).drop d.pos).take n).length := natOfBits_lt _
      _ ≤ 2 ^ n := Nat.pow_le_pow_right (by norm_num) (List.length_take_le _ _)

/-- Witness for C9 at the documented concrete input: reading 3 bits of
`[0xE0]` yields 7 and advances the cursor to bit 3; reading past the end
fails `NotEnoughBits`. -/
theorem c9_read_spec_witness :
    (Decoder.new [0xE0]).read 3 = .ok (7, ⟨[0xE0], 3⟩) ∧
      (⟨[0xE0], 8⟩ : Decoder).read 3 = .error .notEnoughBits := by
  constructor
  · have h := (c9_read_spec (Decoder.new [0xE0]) 3 (by norm_num) (by decide) (by decide)).2
      (by decide)
    rw [h.1]
    decide
  · exact (c9_read_spec ⟨[0xE0], 8⟩ 3 (by norm_num) (by decide) (by decide)).1 (by decide)

/-! ## Byte-aligned reading lemmas -/

/-- A byte-aligned `read 8` returns the `k`-th byte. -/
theorem read_u8_aligned (data : List Nat) (k : Nat) (hk : k < data.length)
    (hb : ∀ b ∈ data, b < 256) :
    (⟨data, 8 * k⟩ : Decoder).read 8 = .ok (data.getD k 0, ⟨data, 8 * k + 8⟩) := by
  have h := read_spec ⟨data, 8 * k⟩ 8 (le_refl 8)
    (by show 8 * k ≤ 8 * data.length; omega) hb
  rw [if_neg (by show ¬(8 * data.length < 8 * k + 8); omega)] at h
  rw [h]
  congr 1
  show (natOfBits (((bytesBits data).drop (8 * k)).take 8), _) = _
  rw [bytesBits_drop, List.drop_eq_getElem_cons hk, bytesBits_cons,
    List.take_append_of_le_length (le_of_eq (length_bitsOfByte _).symm),
    List.take_of_length_le (le_of_eq (length_bitsOfByte _)),
    natOfBits_bitsOfByte _ (hb _ (List.getElem_mem hk)), getD_eq_getElem' data k hk]

/-- A byte-aligned run of `read_u8`s returns the next `n` bytes. -/
theorem readBytesLoop_aligned (data : List Nat) (hb : ∀ b ∈ data, b < 256) :
    ∀ (n k : Nat) (acc : List Nat), k + n ≤ data.length →
      Decoder.readBytesLoop n ⟨data, 8 * k⟩ acc =
        .ok (acc ++ (data.drop k).take n, ⟨data, 8 * (k + n)⟩) := by
  intro n
  induction n with
  | zero =>
    intro k acc h
    simp [Decoder.readBytesLoop]
  | succ n ih =>
    intro k acc h
    have hk : k < data.length := by omega
    unfold Decoder.readBytesLoop Decoder.readU8
    rw [read_u8_aligned data k hk hb]
    show Decoder.readBytesLoop n ⟨data, 8 * k + 8⟩ (acc ++ [data.getD k 0]) = _
    rw [show 8 * k + 8 = 8 * (k + 1) from by ring, ih (k + 1) _ (by omega)]
    have hlist : (acc ++ [data.getD k 0]) ++ (data.drop (k + 1)).take n =
        acc ++ (data.drop k).take (n + 1) := by
      rw [List.append_assoc]
      congr 1
      rw [List.drop_eq_getElem_cons hk, List.take_succ_cons, getD_eq_getElem' data k hk]
      rfl
    rw [hlist, show k + 1 + n = k + (n + 1) from by ring]

/-- `Encoder.append` of two padding-free encoders concatenates the bytes. -/
theorem append_no_padding (bs cs : List Nat) :
    (⟨bs, 0⟩ : Encoder).append ⟨cs, 0⟩ = ⟨bs ++ cs, 0⟩ := by
  unfold Encoder.append
  rcases bs with - | ⟨b, bs'⟩
  · simp
  · rcases cs with - | ⟨c, cs'⟩
    · simp
    · simp

/-! ## Constrained integer paths with whole octets -/

/-- `encode_int`/`decode_int` with `n_bits = 8` (e.g. `u8`, `i8`): one raw
byte `v - min`, decoded by a single aligned `read_u8`.  The decode side is
stated at an arbitrary byte-aligned cursor position. -/
theorem int_path8_encode (l h v : Int) (hnb : ceilLog2 (h - l + 1).toNat = 8)
    (hlv : l ≤ v) (hvh : v ≤ h) (hr : h - l + 1 ≤ 256) :
    encodeInt v (some l) (some h) = .ok ⟨[(v - l).toNat], 0⟩ := by
  have hvl256 : v - l < 256 := by omega
  simp only [encodeInt]
  rw [hnb]
  rw [if_neg (by norm_num), if_pos (by norm_num), if_neg (by norm_num)]
  have hu8 : i64ToU8 (v - l) = (v - l).toNat := by
    unfold i64ToU8
    rw [Int.emod_eq_of_lt (by omega) (by omega)]
  rw [hu8]

theorem int_path8_decode (l h : Int) (hnb : ceilLog2 (h - l + 1).toNat = 8)
    (data : List Nat) (k : Nat) (hk : k < data.length) (hb : ∀ b ∈ data, b < 256) :
    (⟨data, 8 * k⟩ : Decoder).decodeInt (some l) (some h) =
      .ok ((data.getD k 0 : Int) + l) ⟨data, 8 * k + 8⟩ := by
  simp only [Decoder.decodeInt]
  rw [hnb]
  rw [if_neg (by norm_num), if_pos (by norm_num)]
  unfold Decoder.readU8
  rw [read_u8_aligned data k hk hb]
  show (if (8 : Nat) ≠ 8 then _ else DOut.ok ((data.getD k 0 : Int) + l) ⟨data, 8 * k + 8⟩) = _
  rw [if_neg (by norm_num)]

/-- `encode_int`/`decode_int` with `n_bits` in `(8, 16]` (e.g. `u16`, `i16`):
two raw big-endian bytes of `v - min`. -/
theorem int_path16 (l h v : Int) (hnb : ceilLog2 (h - l + 1).toNat = 16)
    (hlv : l ≤ v) (hvh : v ≤ h) (hr : h - l + 1 ≤ 2 ^ 16) :
    encodeInt v (some l) (some h) =
      .ok ⟨[(v - l).toNat / 256, (v - l).toNat % 256], 0⟩ ∧
    (Decoder.new [(v - l).toNat / 256, (v - l).toNat % 256]).decodeInt (some l) (some h) =
      .ok v ⟨[(v - l).toNat / 256, (v - l).toNat % 256], 16⟩ := by
  have hw : ((v - l).toNat : Int) = v - l := Int.toNat_of_nonneg (by omega)
  have hvlt : v - l < 2 ^ 16 := by omega
  have hwlt : (v - l).toNat < 2 ^ 16 := by omega
  have hhi : (v - l).toNat / 256 < 256 := by omega
  constructor
  · simp only [encodeInt]
    rw [hnb]
    rw [if_neg (by norm_num), if_pos (by norm_num), if_pos (by norm_num)]
    have hu8 : i64ToU8 (v - l) = (v - l).toNat % 256 := by
      unfold i64ToU8
      rw [← hw]
      norm_cast
    have hfdiv : ∀ w : Nat, Int.fdiv (w : Int) 256 = ((w / 256 : Nat) : Int) := by
      intro w
      cases w with
      | zero => rfl
      | succ m => rfl
    have hshr : i64ToU8 (i64Shr8 (v - l)) = (v - l).toNat / 256 := by
      unfold i64ToU8 i64Shr8
      conv_lhs => rw [← hw]
      rw [hfdiv, Int.emod_eq_of_lt (by positivity) (by exact_mod_cast hhi)]
      exact Int.toNat_natCast _
    rw [hu8, hshr]
  · simp only [Decoder.decodeInt]
    rw [hnb]
    rw [if_neg (by norm_num), if_pos (by norm_num)]
    unfold Decoder.readU8
    have hb2 : ∀ b ∈ [(v - l).toNat / 256, (v - l).toNat % 256], b < 256 := by
      intro b hbm
      simp at hbm
      rcases hbm with h1 | h1 <;> omega
    rw [show Decoder.new [(v - l).toNat / 256, (v - l).toNat % 256] =
        ⟨[(v - l).toNat / 256, (v - l).toNat % 256], 8 * 0⟩ from rfl,
      read_u8_aligned _ 0 (by norm_num) hb2]
    show (if (16 : Nat) ≠ 8 then _ else _) = _
    rw [if_pos (by norm_num)]
    show (match (⟨[(v - l).toNat / 256, (v - l).toNat % 256], 8 * 0 + 8⟩ : Decoder).read 8 with
      | .error e => DOut.err e
      | .ok (b2, d2) => DOut.ok
          ((((b2 + (([(v - l).toNat / 256, (v - l).toNat % 256].getD 0 0 <<< 8) % 65536)) %
            65536 : Nat) : Int) + l) d2) = _
    rw [show (⟨[(v - l).toNat / 256, (v - l).toNat % 256], 8 * 0 + 8⟩ : Decoder) =
        ⟨[(v - l).toNat / 256, (v - l).toNat % 256], 8 * 1⟩ from rfl,
      read_u8_aligned _ 1 (by norm_num) hb2]
    show DOut.ok ((((((v - l).toNat % 256) + ((((v - l).toNat / 256) <<< 8) % 65536)) %
        65536 : Nat) : Int) + l) ⟨[(v - l).toNat / 256, (v - l).toNat % 256], 8 * 1 + 8⟩ = _
    have harith : (((v - l).toNat % 256) + ((((v - l).toNat / 256) <<< 8) % 65536)) % 65536 =
        (v - l).toNat := by
      rw [Nat.shiftLeft_eq]
      have h1 : ((v - l).toNat / 256) * 2 ^ 8 < 65536 := by omega
      rw [Nat.mod_eq_of_lt h1, Nat.mod_eq_of_lt (by omega)]
      omega
    rw [harith, hw]
    show DOut.ok (v - l + l) _ = _
    rw [show v - l + l = v from by ring]

theorem length_bytesOfBE : ∀ (n v : Nat), (bytesOfBE v n).length = n := by
  intro n
  induction n with
  | zero => intro v; rfl
  | succ n ih => intro v; simp [bytesOfBE, ih]

theorem bytesOfBE_lt : ∀ (n v : Nat), ∀ b ∈ bytesOfBE v n, b < 256 := by
  intro n
  induction n with
  | zero => intro v b hb; simp [bytesOfBE] at hb
  | succ n ih =>
    intro v b hb
    simp only [bytesOfBE, List.mem_cons] at hb
    rcases hb with h | h
    · omega
    · exact ih _ _ h

theorem foldl_bytesOfBE : ∀ (n a v : Nat), v < 2 ^ (8 * n) →
    (bytesOfBE v n).foldl (fun acc b => acc * 256 + b) a = a * 2 ^ (8 * n) + v := by
  intro n
  induction n with
  | zero =>
    intro a v hv
    interval_cases v
    simp [bytesOfBE]
  | succ n ih =>
    intro a v hv
    have hpow : (2 : Nat) ^ (8 * (n + 1)) = 2 ^ (8 * n) * 256 := by
      rw [show 8 * (n + 1) = 8 * n + 8 from by ring, pow_add]
      norm_num
    have hd : v / 2 ^ (8 * n) < 256 := by
      apply Nat.div_lt_of_lt_mul
      rw [← hpow]
      exact hv
    have hmod : v % 2 ^ (8 * n) < 2 ^ (8 * n) :=
      Nat.mod_lt _ (Nat.pos_pow_of_pos _ (by norm_num))
    simp only [bytesOfBE, List.foldl_cons]
    rw [Nat.mod_eq_of_lt hd, ih _ _ hmod, hpow]
    have hsplit : v / 2 ^ (8 * n) * 2 ^ (8 * n) + v % 2 ^ (8 * n) = v := by
      rw [Nat.mul_comm]
      exact Nat.div_add_mod v _
    calc (a * 256 + v / 2 ^ (8 * n)) * 2 ^ (8 * n) + v % 2 ^ (8 * n)
        = a * (2 ^ (8 * n) * 256) + (v / 2 ^ (8 * n) * 2 ^ (8 * n) + v % 2 ^ (8 * n)) := by
          ring
      _ = a * (2 ^ (8 * n) * 256) + v := by rw [hsplit]

/-- Small bit-mask facts for determinant bytes below 64. -/
theorem land_small : ∀ c : Nat, c < 64 → c &&& 192 = 0 ∧ c &&& 128 = 0 ∧ c &&& 127 = c := by
  decide

/-- `decode_length` at the start of a buffer whose first byte is `< 64`
(short form untouched by the `& 0xC0` test). -/
theorem decodeLength_short (data : List Nat) (c : Nat) (hb : ∀ b ∈ data, b < 256)
    (h0 : 0 < data.length) (hgd : data.getD 0 0 = c) (hc : c < 64) :
    (Decoder.new data).decodeLength = .ok (c, ⟨data, 8⟩) := by
  unfold Decoder.decodeLength Decoder.readU8
  rw [show Decoder.new data = ⟨data, 8 * 0⟩ from rfl, read_u8_aligned data 0 h0 hb]
  show (if 0 < data.getD 0 0 &&& LENGTH_DET_FRAG then Except.error DecodeError.notImplemented
    else if 0 < data.getD 0 0 &&& LENGTH_DET_LONG then _
    else Except.ok (data.getD 0 0 &&& LENGTH_MASK_SHORT, (⟨data, 8 * 0 + 8⟩ : Decoder))) = _
  simp only [LENGTH_DET_FRAG, LENGTH_DET_LONG, LENGTH_MASK_SHORT, hgd]
  rw [if_neg (by rw [(land_small _ hc).1]; norm_num),
    if_neg (by rw [(land_small _ hc).2.1]; norm_num), (land_small _ hc).2.2]

/-- `encode_int`/`decode_int` with `n_bits = 32` (e.g. `u32`, `i32`): a
length determinant of 4 followed by four big-endian bytes of `v - min`. -/
theorem int_path32 (l h v : Int) (hnb : ceilLog2 (h - l + 1).toNat = 32)
    (hlv : l ≤ v) (hvh : v ≤ h) (hr : h - l + 1 ≤ 2 ^ 32) :
    encodeInt v (some l) (some h) = .ok ⟨4 :: bytesOfBE (v - l).toNat 4, 0⟩ ∧
    (Decoder.new (4 :: bytesOfBE (v - l).toNat 4)).decodeInt (some l) (some h) =
      .ok v ⟨4 :: bytesOfBE (v - l).toNat 4, 40⟩ := by
  have hw : ((v - l).toNat : Int) = v - l := Int.toNat_of_nonneg (by omega)
  have hvlt : v - l < 2 ^ 32 := by omega
  have hwlt : (v - l).toNat < 2 ^ 32 := by omega
  have hdata : ∀ b ∈ 4 :: bytesOfBE (v - l).toNat 4, b < 256 := by
    intro b hbm
    rcases List.mem_cons.mp hbm with h1 | h1
    · omega
    · exact bytesOfBE_lt _ _ _ h1
  have hlen : (4 :: bytesOfBE (v - l).toNat 4).length = 5 := by
    rw [List.length_cons, length_bytesOfBE]
  constructor
  · simp only [encodeInt]
    rw [hnb]
    rw [if_neg (by norm_num), if_neg (by norm_num)]
    rw [show ((32 : Nat) + 7) / 8 = 4 from by norm_num]
    rw [show encodeLength 4 = .ok ⟨[4], 0⟩ from by decide]
    show (match writeUintBE (i64ToU64 (v - l)) 4 with
      | none => EOut.panicked
      | some bs => EOut.ok ((⟨[4], 0⟩ : Encoder).append ⟨bs, 0⟩)) = _
    have hu64 : i64ToU64 (v - l) = (v - l).toNat := by
      unfold i64ToU64
      rw [Int.emod_eq_of_lt (by omega) (by omega)]
    rw [hu64]
    rw [show writeUintBE (v - l).toNat 4 = some (bytesOfBE (v - l).toNat 4) from by
      unfold writeUintBE
      rw [if_pos ⟨by norm_num, by norm_num, by norm_num at hwlt ⊢; omega⟩]]
    show EOut.ok ((⟨[4], 0⟩ : Encoder).append ⟨bytesOfBE (v - l).toNat 4, 0⟩) = _
    rw [append_no_padding]
    rfl
  · simp only [Decoder.decodeInt]
    rw [hnb]
    rw [if_neg (by norm_num), if_neg (by norm_num)]
    rw [decodeLength_short _ 4 hdata (by omega) rfl (by norm_num)]
    show (if 8 < (4 : Nat) then DOut.err DecodeError.notImplemented
      else match (⟨4 :: bytesOfBE (v - l).toNat 4, 8⟩ : Decoder).readToVec [] (4 * 8) with
        | .error e => DOut.err e
        | .ok (content, d2) =>
          match readUintBE content 4 with
          | none => DOut.panicked
          | some u =>
            if ((u : Int) + l) < l ∨ h < ((u : Int) + l) then DOut.err DecodeError.malformedInt
            else DOut.ok ((u : Int) + l) d2) = _
    rw [if_neg (by norm_num)]
    unfold Decoder.readToVec
    rw [if_neg (by norm_num),
      if_neg (by show ¬(8 * (4 :: bytesOfBE (v - l).toNat 4).length < 8 + 4 * 8)
                 rw [hlen]; norm_num),
      if_neg (by norm_num)]
    rw [show ((4 : Nat) * 8 + 7) / 8 = 4 from by norm_num]
    rw [show (⟨4 :: bytesOfBE (v - l).toNat 4, 8⟩ : Decoder) =
      ⟨4 :: bytesOfBE (v - l).toNat 4, 8 * 1⟩ from rfl]
    rw [readBytesLoop_aligned _ hdata 4 1 [] (by rw [hlen])]
    show (match readUintBE ([] ++ ((4 :: bytesOfBE (v - l).toNat 4).drop 1).take 4) 4 with
      | none => DOut.panicked
      | some u =>
        if ((u : Int) + l) < l ∨ h < ((u : Int) + l) then DOut.err DecodeError.malformedInt
        else DOut.ok ((u : Int) + l)
          ⟨4 :: bytesOfBE (v - l).toNat 4, 8 * (1 + 4) - 4 * 8 % 8⟩) = _
    rw [show ([] ++ ((4 :: bytesOfBE (v - l).toNat 4).drop 1).take 4) =
        bytesOfBE (v - l).toNat 4 from by
      rw [List.nil_append, List.drop_one, List.tail_cons,
        List.take_of_length_le (by rw [length_bytesOfBE])]]
    rw [show readUintBE (bytesOfBE (v - l).toNat 4) 4 = some ((v - l).toNat) from by
      unfold readUintBE
      rw [if_pos ⟨by norm_num, by norm_num, by rw [length_bytesOfBE]⟩,
        List.take_of_length_le (by rw [length_bytesOfBE]),
        foldl_bytesOfBE 4 0 _ (by norm_num at hwlt ⊢; omega)]
      norm_num]
    show (if ((((v - l).toNat : Int) + l) < l ∨ h < (((v - l).toNat : Int) + l)) then
        DOut.err DecodeError.malformedInt
      else DOut.ok (((v - l).toNat : Int) + l)
        ⟨4 :: bytesOfBE (v - l).toNat 4, 8 * (1 + 4) - 4 * 8 % 8⟩) = _
    rw [if_neg (by rw [hw]; push_neg; constructor <;> omega)]
    rw [hw, show v - l + l = v from by ring]

/-! ## Round trips of the fixed-width integer adapters (`src/integer.rs`) -/

theorem u8_roundtrip (v : Int) (h0 : 0 ≤ v) (h1 : v ≤ 255) :
    intToAper 0 255 v = .ok ⟨[v.toNat], 0⟩ ∧
    intFromAper 0 255 (fun x => x % 256) (Decoder.new [v.toNat]) = .ok v ⟨[v.toNat], 8⟩ := by
  constructor
  · unfold intToAper
    rw [int_path8_encode 0 255 v (by decide) h0 h1 (by norm_num),
      show v - 0 = v from by ring]
  · unfold intFromAper
    rw [show Decoder.new [v.toNat] = (⟨[v.toNat], 8 * 0⟩ : Decoder) from rfl,
      int_path8_decode 0 255 (by decide) [v.toNat] 0 (by norm_num)
        (by intro b hbm; simp at hbm; omega)]
    show DOut.ok ((((v.toNat : Nat) : Int) + 0) % 256) ⟨[v.toNat], 8 * 0 + 8⟩ = _
    rw [show (((v.toNat : Nat) : Int) + 0) % 256 = v from by omega]

theorem i8_roundtrip (v : Int) (h0 : -128 ≤ v) (h1 : v ≤ 127) :
    intToAper (-128) 127 v = .ok ⟨[(v + 128).toNat], 0⟩ ∧
    intFromAper (-128) 127 i64ToI8 (Decoder.new [(v + 128).toNat]) =
      .ok v ⟨[(v + 128).toNat], 8⟩ := by
  constructor
  · unfold intToAper
    rw [int_path8_encode (-128) 127 v (by decide) h0 h1 (by norm_num),
      show v - -128 = v + 128 from by ring]
  · unfold intFromAper
    rw [show Decoder.new [(v + 128).toNat] = (⟨[(v + 128).toNat], 8 * 0⟩ : Decoder) from rfl,
      int_path8_decode (-128) 127 (by decide) [(v + 128).toNat] 0 (by norm_num)
        (by intro b hbm; simp at hbm; omega)]
    show DOut.ok (i64ToI8 ((((v + 128).toNat : Nat) : Int) + -128))
      ⟨[(v + 128).toNat], 8 * 0 + 8⟩ = _
    rw [show i64ToI8 ((((v + 128).toNat : Nat) : Int) + -128) = v from by
      unfold i64ToI8; omega]

theorem u16_roundtrip (v : Int) (h0 : 0 ≤ v) (h1 : v ≤ 65535) :
    intToAper 0 65535 v = .ok ⟨[v.toNat / 256, v.toNat % 256], 0⟩ ∧
    intFromAper 0 65535 i64ToU16 (Decoder.new [v.toNat / 256, v.toNat % 256]) =
      .ok v ⟨[v.toNat / 256, v.toNat % 256], 16⟩ := by
  have h := int_path16 0 65535 v (by decide) h0 h1 (by norm_num)
  rw [show v - 0 = v from by ring] at h
  refine ⟨by unfold intToAper; rw [h.1], ?_⟩
  unfold intFromAper
  rw [h.2]
  show DOut.ok (i64ToU16 v) ⟨[v.toNat / 256, v.toNat % 256], 16⟩ = _
  rw [show i64ToU16 v = v from by unfold i64ToU16; omega]

theorem i16_roundtrip (v : Int) (h0 : -32768 ≤ v) (h1 : v ≤ 32767) :
    intToAper (-32768) 32767 v =
      .ok ⟨[(v + 32768).toNat / 256, (v + 32768).toNat % 256], 0⟩ ∧
    intFromAper (-32768) 32767 i64ToI16
        (Decoder.new [(v + 32768).toNat / 256, (v + 32768).toNat % 256]) =
      .ok v ⟨[(v + 32768).toNat / 256, (v + 32768).toNat % 256], 16⟩ := by
  have h := int_path16 (-32768) 32767 v (by decide) h0 h1 (by norm_num)
  rw [show v - -32768 = v + 32768 from by ring] at h
  refine ⟨by unfold intToAper; rw [h.1], ?_⟩
  unfold intFromAper
  rw [h.2]
  show DOut.ok (i64ToI16 v) ⟨[(v + 32768).toNat / 256, (v + 32768).toNat % 256], 16⟩ = _
  rw [show i64ToI16 v = v from by unfold i64ToI16; omega]

theorem u32_roundtrip (v : Int) (h0 : 0 ≤ v) (h1 : v ≤ 4294967295) :
    intToAper 0 4294967295 v = .ok ⟨4 :: bytesOfBE v.toNat 4, 0⟩ ∧
    intFromAper 0 4294967295 i64ToU32 (Decoder.new (4 :: bytesOfBE v.toNat 4)) =
      .ok v ⟨4 :: bytesOfBE v.toNat 4, 40⟩ := by
  have h := int_path32 0 4294967295 v (by decide) h0 h1 (by norm_num)
  rw [show v - 0 = v from by ring] at h
  refine ⟨by unfold intToAper; rw [h.1], ?_⟩
  unfold intFromAper
  rw [h.2]
  show DOut.ok (i64ToU32 v) ⟨4 :: bytesOfBE v.toNat 4, 40⟩ = _
  rw [show i64ToU32 v = v from by unfold i64ToU32; omega]

theorem i32_roundtrip (v : Int) (h0 : -2147483648 ≤ v) (h1 : v ≤ 2147483647) :
    intToAper (-2147483648) 2147483647 v =
      .ok ⟨4 :: bytesOfBE (v + 2147483648).toNat 4, 0⟩ ∧
    intFromAper (-2147483648) 2147483647 i64ToI32
        (Decoder.new (4 :: bytesOfBE (v + 2147483648).toNat 4)) =
      .ok v ⟨4 :: bytesOfBE (v + 2147483648).toNat 4, 40⟩ := by
  have h := int_path32 (-2147483648) 2147483647 v (by decide) h0 h1 (by norm_num)
  rw [show v - -2147483648 = v + 2147483648 from by ring] at h
  refine ⟨by unfold intToAper; rw [h.1], ?_⟩
  unfold intFromAper
  rw [h.2]
  show DOut.ok (i64ToI32 v) ⟨4 :: bytesOfBE (v + 2147483648).toNat 4, 40⟩ = _
  rw [show i64ToI32 v = v from by unfold i64ToI32; omega]

/-! ## `Vec<u8>` lemmas (`src/sequence_of.rs`) -/

theorem encodeLength_small (len : Nat) (h : len < 128) :
    encodeLength len = .ok ⟨[len], 0⟩ := by
  unfold encodeLength
  rw [if_pos h]
  simp only [LENGTH_MASK_SHORT, LENGTH_DET_SHORT]
  rw [Nat.mod_eq_of_lt (by omega), show (127 : Nat) = 2 ^ 7 - 1 from by norm_num,
    Nat.and_pow_two_sub_one_eq_mod, Nat.mod_eq_of_lt h, Nat.or_zero]

theorem vecU8EncodeElems_spec : ∀ (xs : List Int) (bs : List Nat),
    (∀ x ∈ xs, 0 ≤ x ∧ x ≤ 255) →
    vecU8EncodeElems xs ⟨bs, 0⟩ = .ok ⟨bs ++ xs.map Int.toNat, 0⟩ := by
  intro xs
  induction xs with
  | nil =>
    intro bs h
    simp [vecU8EncodeElems]
  | cons x xs ih =>
    intro bs h
    have hx := h x (by simp)
    unfold vecU8EncodeElems intToAper
    rw [int_path8_encode 0 255 x (by decide) (by omega) (by omega) (by norm_num)]
    show vecU8EncodeElems xs ((⟨bs, 0⟩ : Encoder).append ⟨[(x - 0).toNat], 0⟩) = _
    rw [append_no_padding, ih _ (fun y hy => h y (by simp [hy]))]
    rw [show x - 0 = x from by ring, List.append_assoc]
    rfl

theorem vecU8DecodeElems_spec (data : List Nat) (hb : ∀ b ∈ data, b < 256) :
    ∀ (n k : Nat) (acc : List Int), k + n ≤ data.length →
      vecU8DecodeElems n ⟨data, 8 * k⟩ acc =
        .ok (acc ++ ((data.drop k).take n).map (fun b : Nat => (b : Int))) ⟨data, 8 * (k + n)⟩ := by
  intro n
  induction n with
  | zero =>
    intro k acc h
    simp [vecU8DecodeElems]
  | succ n ih =>
    intro k acc h
    have hk : k < data.length := by omega
    have hblt : data.getD k 0 < 256 := by
      rw [getD_eq_getElem' data k hk]
      exact hb _ (List.getElem_mem hk)
    unfold vecU8DecodeElems intFromAper
    rw [int_path8_decode 0 255 (by decide) data k hk hb]
    show vecU8DecodeElems n ⟨data, 8 * k + 8⟩
      (acc ++ [(((data.getD k 0 : Nat) : Int) + 0) % 256]) = _
    rw [show (((data.getD k 0 : Nat) : Int) + 0) % 256 = ((data.getD k 0 : Nat) : Int) from by
      omega]
    rw [show 8 * k + 8 = 8 * (k + 1) from by ring, ih (k + 1) _ (by omega)]
    have hlist : (acc ++ [((data.getD k 0 : Nat) : Int)]) ++
        ((data.drop (k + 1)).take n).map (fun b : Nat => (b : Int)) =
        acc ++ ((data.drop k).take (n + 1)).map (fun b : Nat => (b : Int)) := by
      rw [List.append_assoc]
      congr 1
      rw [List.drop_eq_getElem_cons hk, List.take_succ_cons, List.map_cons,
        getD_eq_getElem' data k hk]
      rfl
    rw [hlist, show k + 1 + n = k + (n + 1) from by ring]

theorem vecU8ToAper_spec (bs : List Nat) (c : Constraints) (hlen : bs.length < 128)
    (hb : ∀ b ∈ bs, b < 256) :
    vecU8ToAper (bs.map (fun b : Nat => (b : Int))) c = .ok ⟨bs.length :: bs, 0⟩ := by
  unfold vecU8ToAper
  rw [List.length_map, encodeLength_small _ hlen]
  show vecU8EncodeElems (bs.map (fun b : Nat => (b : Int))) ⟨[bs.length], 0⟩ = _
  rw [vecU8EncodeElems_spec _ _ (by
    intro x hx
    simp only [List.mem_map] at hx
    obtain ⟨b, hbm, rfl⟩ := hx
    have := hb b hbm
    omega)]
  rw [List.map_map,
    show (Int.toNat ∘ fun b : Nat => (b : Int)) = (fun b : Nat => b) from
      funext (fun b => Int.toNat_natCast b),
    List.map_id']
  rfl

theorem vecU8FromAper_fixed (bs : List Nat) (vc : Option Constraint)
    (hb : ∀ b ∈ bs, b < 256) (hlen : bs.length < 65535) :
    vecU8FromAper (Decoder.new bs)
        ⟨vc, some ⟨some (bs.length : Int), some (bs.length : Int)⟩⟩ =
      .ok (bs.map (fun b : Nat => (b : Int))) ⟨bs, 8 * bs.length⟩ := by
  unfold vecU8FromAper
  show (if 65535 ≤ i64ToUsize (bs.length : Int) then DOut.err .notImplemented
    else match (if i64ToUsize (bs.length : Int) = i64ToUsize (bs.length : Int) then
        Except.ok (i64ToUsize (bs.length : Int), Decoder.new bs)
      else (Decoder.new bs).decodeLength : Except DecodeError (Nat × Decoder)) with
      | .error e => DOut.err e
      | .ok (len, d1) => vecU8DecodeElems len d1 []) = _
  have hus : i64ToUsize (bs.length : Int) = bs.length := by
    unfold i64ToUsize
    rw [Int.emod_eq_of_lt (by positivity) (by omega)]
    exact Int.toNat_natCast _
  rw [hus, if_neg (by omega), if_pos rfl]
  show vecU8DecodeElems bs.length (⟨bs, 8 * 0⟩ : Decoder) [] = _
  rw [vecU8DecodeElems_spec bs hb bs.length 0 [] (by omega),
    List.drop_zero, List.take_length, List.nil_append, Nat.zero_add]

theorem vecU8FromAper_var (bs : List Nat) (m : Nat) (vc : Option Constraint)
    (hb : ∀ b ∈ bs, b < 256) (hlen : bs.length < 64) (hm0 : 0 < m) (hm : m < 65535) :
    vecU8FromAper (Decoder.new (bs.length :: bs)) ⟨vc, some ⟨none, some (m : Int)⟩⟩ =
      .ok (bs.map (fun b : Nat => (b : Int))) ⟨bs.length :: bs, 8 * (1 + bs.length)⟩ := by
  unfold vecU8FromAper
  show (if 65535 ≤ i64ToUsize (m : Int) then DOut.err .notImplemented
    else match (if i64ToUsize (m : Int) = 0 then
        Except.ok (i64ToUsize (m : Int), Decoder.new (bs.length :: bs))
      else (Decoder.new (bs.length :: bs)).decodeLength :
        Except DecodeError (Nat × Decoder)) with
      | .error e => DOut.err e
      | .ok (len, d1) => vecU8DecodeElems len d1 []) = _
  have hus : i64ToUsize (m : Int) = m := by
    unfold i64ToUsize
    rw [Int.emod_eq_of_lt (by positivity) (by omega)]
    exact Int.toNat_natCast _
  have hdata : ∀ b ∈ bs.length :: bs, b < 256 := by
    intro b hbm
    rcases List.mem_cons.mp hbm with h1 | h1
    · omega
    · exact hb _ h1
  rw [hus, if_neg (by omega), if_neg (by omega),
    decodeLength_short (bs.length :: bs) bs.length hdata (by simp) rfl (by omega)]
  show vecU8DecodeElems bs.length (⟨bs.length :: bs, 8 * 1⟩ : Decoder) [] = _
  rw [vecU8DecodeElems_spec (bs.length :: bs) hdata bs.length 1 []
      (by simp only [List.length_cons]; omega),
    List.drop_one, List.tail_cons, List.take_length, List.nil_append]

/-! ## C4: round trips of the supported types -/

/-- **C4** (counterexample): the claim asserts `decode ∘ encode = id` for
every supported type with a consistent `Constraints` — but for `Vec<u8>`
with the exact-size constraint `(2, 2)`, `to_aper` still emits a length
determinant while `from_aper` reads none: `[0xAA, 0xBB]` encodes to
`[0x02, 0xAA, 0xBB]` and decoding those bytes with the same constraints
returns `[0x02, 0xAA] ≠ [0xAA, 0xBB]`. -/
theorem c4_roundtrip_counterexample :
    vecU8ToAper [0xAA, 0xBB] ⟨none, some ⟨some 2, some 2⟩⟩ = .ok ⟨[0x02, 0xAA, 0xBB], 0⟩ ∧
    vecU8FromAper (Decoder.new [0x02, 0xAA, 0xBB]) ⟨none, some ⟨some 2, some 2⟩⟩ =
      .ok [0x02, 0xAA] ⟨[0x02, 0xAA, 0xBB], 16⟩ ∧
    ([0x02, 0xAA] : List Int) ≠ [0xAA, 0xBB] := by
  refine ⟨by decide, by decide, by decide⟩

/-- **C4** (amended): decoding the bytes produced by `to_aper` with the same
constraints returns the original value for `bool`, `()` and the six
fixed-width integer types, over their whole ranges, and for `Vec<u8>` under
a variable-size constraint with fewer than 64 elements; it fails for
sequence-of with an exact-size constraint (see the counterexample) and for
longer vectors (`decode_length` rejects their determinants), and
`BitString`'s implementation is absent from the sources. -/
theorem c4_decode_encode_id :
    (∀ b : Bool, boolFromAper (Decoder.new (boolToAper b).bytes) =
      .ok b ⟨(boolToAper b).bytes, 1⟩) ∧
    nullFromAper (Decoder.new nullToAper.bytes) = .ok () (Decoder.new nullToAper.bytes) ∧
    (∀ v : Int, 0 ≤ v → v ≤ 255 →
      intToAper 0 255 v = .ok ⟨[v.toNat], 0⟩ ∧
      intFromAper 0 255 (fun x => x % 256) (Decoder.new [v.toNat]) =
        .ok v ⟨[v.toNat], 8⟩) ∧
    (∀ v : Int, -128 ≤ v → v ≤ 127 →
      intToAper (-128) 127 v = .ok ⟨[(v + 128).toNat], 0⟩ ∧
      intFromAper (-128) 127 i64ToI8 (Decoder.new [(v + 128).toNat]) =
        .ok v ⟨[(v + 128).toNat], 8⟩) ∧
    (∀ v : Int, 0 ≤ v → v ≤ 65535 →
      intToAper 0 65535 v = .ok ⟨[v.toNat / 256, v.toNat % 256], 0⟩ ∧
      intFromAper 0 65535 i64ToU16 (Decoder.new [v.toNat / 256, v.toNat % 256]) =
        .ok v ⟨[v.toNat / 256, v.toNat % 256], 16⟩) ∧
    (∀ v : Int, -32768 ≤ v → v ≤ 32767 →
      intToAper (-32768) 32767 v =
        .ok ⟨[(v + 32768).toNat / 256, (v + 32768).toNat % 256], 0⟩ ∧
      intFromAper (-32768) 32767 i64ToI16
          (Decoder.new [(v + 32768).toNat / 256, (v + 32768).toNat % 256]) =
        .ok v ⟨[(v + 32768).toNat / 256, (v + 32768).toNat % 256], 16⟩) ∧
    (∀ v : Int, 0 ≤ v → v ≤ 4294967295 →
      intToAper 0 4294967295 v = .ok ⟨4 :: bytesOfBE v.toNat 4, 0⟩ ∧
      intFromAper 0 4294967295 i64ToU32 (Decoder.new (4 :: bytesOfBE v.toNat 4)) =
        .ok v ⟨4 :: bytesOfBE v.toNat 4, 40⟩) ∧
    (∀ v : Int, -2147483648 ≤ v → v ≤ 2147483647 →
      intToAper (-2147483648) 2147483647 v =
        .ok ⟨4 :: bytesOfBE (v + 2147483648).toNat 4, 0⟩ ∧
      intFromAper (-2147483648) 2147483647 i64ToI32
          (Decoder.new (4 :: bytesOfBE (v + 2147483648).toNat 4)) =
        .ok v ⟨4 :: bytesOfBE (v + 2147483648).toNat 4, 40⟩) ∧
    (∀ (bs : List Nat) (m : Nat) (c : Constraints), (∀ b ∈ bs, b < 256) →
      bs.length < 64 → 0 < m → m < 65535 →
      vecU8ToAper (bs.map (fun b : Nat => (b : Int))) c = .ok ⟨bs.length :: bs, 0⟩ ∧
      vecU8FromAper (Decoder.new (bs.length :: bs)) ⟨none, some ⟨none, some (m : Int)⟩⟩ =
        .ok (bs.map (fun b : Nat => (b : Int))) ⟨bs.length :: bs, 8 * (1 + bs.length)⟩) := by
  refine ⟨by decide, rfl, u8_roundtrip, i8_roundtrip, u16_roundtrip, i16_roundtrip,
    u32_roundtrip, i32_roundtrip, ?_⟩
  intro bs m c hb hlen hm0 hm
  exact ⟨vecU8ToAper_spec bs c (by omega) hb, vecU8FromAper_var bs m none hb hlen hm0 hm⟩

/-- Witness for the amended C4 at concrete inputs of every type. -/
theorem c4_decode_encode_id_witness :
    (intToAper 0 255 170 = .ok ⟨[170], 0⟩ ∧
      intFromAper 0 255 (fun x => x % 256) (Decoder.new [170]) = .ok 170 ⟨[170], 8⟩) ∧
    (intToAper (-128) 127 (-5) = .ok ⟨[123], 0⟩ ∧
      intFromAper (-128) 127 i64ToI8 (Decoder.new [123]) = .ok (-5) ⟨[123], 8⟩) ∧
    (intToAper 0 65535 65094 = .ok ⟨[254, 70], 0⟩ ∧
      intFromAper 0 65535 i64ToU16 (Decoder.new [254, 70]) = .ok 65094 ⟨[254, 70], 16⟩) ∧
    (intToAper (-32768) 32767 (-1234) = .ok ⟨[123, 46], 0⟩ ∧
      intFromAper (-32768) 32767 i64ToI16 (Decoder.new [123, 46]) =
        .ok (-1234) ⟨[123, 46], 16⟩) ∧
    (intToAper 0 4294967295 2147483655 = .ok ⟨[4, 128, 0, 0, 7], 0⟩ ∧
      intFromAper 0 4294967295 i64ToU32 (Decoder.new [4, 128, 0, 0, 7]) =
        .ok 2147483655 ⟨[4, 128, 0, 0, 7], 40⟩) ∧
    (intToAper (-2147483648) 2147483647 (-2147483648) = .ok ⟨[4, 0, 0, 0, 0], 0⟩ ∧
      intFromAper (-2147483648) 2147483647 i64ToI32 (Decoder.new [4, 0, 0, 0, 0]) =
        .ok (-2147483648) ⟨[4, 0, 0, 0, 0], 40⟩) ∧
    (vecU8ToAper (([0x46, 0x4F, 0x4F] : List Nat).map (fun b : Nat => (b : Int)))
        UNCONSTRAINED = .ok ⟨[3, 0x46, 0x4F, 0x4F], 0⟩ ∧
      vecU8FromAper (Decoder.new [3, 0x46, 0x4F, 0x4F]) ⟨none, some ⟨none, some 3⟩⟩ =
        .ok (([0x46, 0x4F, 0x4F] : List Nat).map (fun b : Nat => (b : Int)))
          ⟨[3, 0x46, 0x4F, 0x4F], 32⟩) := by
  have h := c4_decode_encode_id
  refine ⟨h.2.2.1 170 (by norm_num) (by norm_num),
    h.2.2.2.1 (-5) (by norm_num) (by norm_num),
    h.2.2.2.2.1 65094 (by norm_num) (by norm_num),
    h.2.2.2.2.2.1 (-1234) (by norm_num) (by norm_num),
    h.2.2.2.2.2.2.1 2147483655 (by norm_num) (by norm_num),
    h.2.2.2.2.2.2.2.1 (-2147483648) (by norm_num) (by norm_num),
    h.2.2.2.2.2.2.2.2 [0x46, 0x4F, 0x4F] 3 UNCONSTRAINED (by decide) (by decide)
      (by decide) (by decide)⟩

/-! ## C6: the sequence-of length determinant -/

/-- **C6** (counterexample): the claim says that with `size.min == size.max`
`to_aper` emits no determinant; in fact `Vec::to_aper` never looks at the
constraints and always emits one: `[0xAA]` with size constraint `(1, 1)`
encodes to `[0x01, 0xAA]`, not `[0xAA]`. -/
theorem c6_determinant_counterexample :
    vecU8ToAper [0xAA] ⟨none, some ⟨some 1, some 1⟩⟩ = .ok ⟨[0x01, 0xAA], 0⟩ ∧
    vecU8ToAper [0xAA] ⟨none, some ⟨some 1, some 1⟩⟩ ≠ .ok ⟨[0xAA], 0⟩ := by
  refine ⟨by decide, by decide⟩

/-- **C6** (amended): `from_aper` omits the determinant exactly when
`size.min == size.max` (using the fixed length) and decodes one otherwise;
but `to_aper` always emits a length determinant, whatever the size
constraint says. -/
theorem c6_seq_of_determinant :
    (∀ (bs : List Nat) (c : Constraints), bs.length < 128 → (∀ b ∈ bs, b < 256) →
      vecU8ToAper (bs.map (fun b : Nat => (b : Int))) c = .ok ⟨bs.length :: bs, 0⟩) ∧
    (∀ (bs : List Nat) (vc : Option Constraint), (∀ b ∈ bs, b < 256) → bs.length < 65535 →
      vecU8FromAper (Decoder.new bs)
          ⟨vc, some ⟨some (bs.length : Int), some (bs.length : Int)⟩⟩ =
        .ok (bs.map (fun b : Nat => (b : Int))) ⟨bs, 8 * bs.length⟩) ∧
    (∀ (bs : List Nat) (m : Nat) (vc : Option Constraint), (∀ b ∈ bs, b < 256) →
      bs.length < 64 → 0 < m → m < 65535 →
      vecU8FromAper (Decoder.new (bs.length :: bs)) ⟨vc, some ⟨none, some (m : Int)⟩⟩ =
        .ok (bs.map (fun b : Nat => (b : Int))) ⟨bs.length :: bs, 8 * (1 + bs.length)⟩) :=
  ⟨fun bs c h1 h2 => vecU8ToAper_spec bs c h1 h2,
   fun bs vc h1 h2 => vecU8FromAper_fixed bs vc h1 h2,
   fun bs m vc h1 h2 h3 h4 => vecU8FromAper_var bs m vc h1 h2 h3 h4⟩

/-- Witness for the amended C6 at concrete inputs: encoding `[0xAA]` under a
fixed-size constraint still yields a determinant; decoding `[0xAA]` under
size `(1,1)` reads no determinant; decoding `[0x01, 0xAA]` under size
`(None, 3)` reads one. -/
theorem c6_seq_of_determinant_witness :
    vecU8ToAper (([0xAA] : List Nat).map (fun b : Nat => (b : Int)))
        ⟨none, some ⟨some 1, some 1⟩⟩ = .ok ⟨[1, 0xAA], 0⟩ ∧
    vecU8FromAper (Decoder.new [0xAA])
        ⟨none, some ⟨some ((([0xAA] : List Nat).length : Nat) : Int),
          some ((([0xAA] : List Nat).length : Nat) : Int)⟩⟩ =
      .ok (([0xAA] : List Nat).map (fun b : Nat => (b : Int))) ⟨[0xAA], 8⟩ ∧
    vecU8FromAper (Decoder.new [1, 0xAA]) ⟨none, some ⟨none, some ((3 : Nat) : Int)⟩⟩ =
      .ok (([0xAA] : List Nat).map (fun b : Nat => (b : Int))) ⟨[1, 0xAA], 16⟩ := by
  have h := c6_seq_of_determinant
  exact ⟨h.1 [0xAA] _ (by decide) (by decide),
    h.2.1 [0xAA] none (by decide) (by decide),
    h.2.2 [0xAA] 3 none (by decide) (by decide) (by decide) (by decide)⟩

/-! ## Byte-level bit lemmas for `Encoder.append` -/

theorem testBit_false_of_mod (x k i : Nat) (hmod : x % 2 ^ k = 0) (hi : i < k) :
    x.testBit i = false := by
  have h := Nat.testBit_mod_two_pow x k i
  rw [hmod] at h
  simp only [Nat.zero_testBit] at h
  have hd : decide (i < k) = true := decide_eq_true hi
  rw [hd, Bool.true_and] at h
  exact h.symm

theorem testBit_false_of_lt_256 (x i : Nat) (hx : x < 256) (hi : 8 ≤ i) :
    x.testBit i = false := by
  apply Nat.testBit_lt_two_pow
  calc x < 256 := hx
    _ = 2 ^ 8 := by norm_num
    _ ≤ 2 ^ i := Nat.pow_le_pow_right (by norm_num) hi

theorem natOfBits_cons (x : Bool) (l : List Bool) :
    natOfBits (x :: l) = (if x then 1 else 0) * 2 ^ l.length + natOfBits l := by
  have h := natOfBits_append [x] l
  simpa [natOfBits] using h

theorem natOfBits_replicate_false (k : Nat) : natOfBits (List.replicate k false) = 0 := by
  induction k with
  | zero => rfl
  | succ k ih => rw [List.replicate_succ, natOfBits_cons, ih]; simp

/-- `natOfBits` is injective on lists of equal length. -/
theorem natOfBits_inj : ∀ l1 l2 : List Bool, l1.length = l2.length →
    natOfBits l1 = natOfBits l2 → l1 = l2 := by
  intro l1
  induction l1 with
  | nil =>
    intro l2 hl hv
    cases l2 with
    | nil => rfl
    | cons y t2 => simp at hl
  | cons x t1 ih =>
    intro l2 hl hv
    cases l2 with
    | nil => simp at hl
    | cons y t2 =>
      simp only [List.length_cons] at hl
      have hl2 : t1.length = t2.length := by omega
      rw [natOfBits_cons, natOfBits_cons, hl2] at hv
      have h1 := natOfBits_lt t1
      have h2 := natOfBits_lt t2
      rw [hl2] at h1
      have hxy : x = y := by
        by_contra hne
        cases x <;> cases y <;> simp at hv hne ⊢ <;> omega
      subst hxy
      have hv2 : natOfBits t1 = natOfBits t2 := by
        cases x <;> simp at hv <;> omega
      rw [ih t2 hl2 hv2]

/-- Disjoint OR is addition. -/
theorem lor_disjoint (k a b : Nat) (ha : a % 2 ^ k = 0) (hb : b < 2 ^ k) :
    a ||| b = a + b := by
  have hd : 2 ^ k * (a / 2 ^ k) = a := Nat.mul_div_cancel' (Nat.dvd_of_mod_eq_zero ha)
  calc a ||| b = 2 ^ k * (a / 2 ^ k) ||| b := by rw [hd]
    _ = 2 ^ k * (a / 2 ^ k) + b := (Nat.mul_add_lt_is_or hb _).symm
    _ = a + b := by rw [hd]

/-- Merging a tail byte whose low `k` bits are zero with a value `< 2^k`:
the bits are the byte's high `8 - k` bits followed by the value's low `k`
bits. -/
theorem byteMerge (k x y : Nat) (hk : k ≤ 8) (hx : x < 256) (hmod : x % 2 ^ k = 0)
    (hy : y < 2 ^ k) :
    bitsOfByte (x ||| y) = (bitsOfByte x).take (8 - k) ++ (bitsOfByte y).drop (8 - k) := by
  have hxe : x / 2 ^ k * 2 ^ k = x := Nat.div_mul_cancel (Nat.dvd_of_mod_eq_zero hmod)
  have hy256 : y < 256 := lt_of_lt_of_le hy (by
    calc (2 : Nat) ^ k ≤ 2 ^ 8 := Nat.pow_le_pow_right (by norm_num) hk
      _ = 256 := by norm_num)
  have hq : x / 2 ^ k < 2 ^ (8 - k) := by
    apply Nat.div_lt_of_lt_mul
    calc x < 256 := hx
      _ = 2 ^ k * 2 ^ (8 - k) := by rw [← pow_add, show k + (8 - k) = 8 from by omega]; norm_num
  have hsum : x + y < 256 := by
    calc x + y < x / 2 ^ k * 2 ^ k + 2 ^ k := by omega
      _ = (x / 2 ^ k + 1) * 2 ^ k := by ring
      _ ≤ 2 ^ (8 - k) * 2 ^ k := Nat.mul_le_mul_right _ (by omega)
      _ = 256 := by rw [← pow_add, show 8 - k + k = 8 from by omega]; norm_num
  apply natOfBits_inj
  · simp [length_bitsOfByte] <;> omega
  · rw [natOfBits_bitsOfByte _ (by rw [lor_disjoint k x y hmod hy]; exact hsum),
      natOfBits_append, natOfBits_take _ _, natOfBits_drop _ _, length_bitsOfByte,
      length_bitsOfByte, natOfBits_bitsOfByte _ hx, natOfBits_bitsOfByte _ hy256,
      lor_disjoint k x y hmod hy]
    rw [show ((bitsOfByte y).drop (8 - k)).length = k from by simp [length_bitsOfByte]; omega,
      show (8 : Nat) - (8 - k) = k from by omega]
    rw [Nat.mod_eq_of_lt hy]
    rw [show x / 2 ^ k * 2 ^ k + y = x + y from by rw [hxe]]

/-- The low bits of a right-shifted byte are the byte's high bits. -/
theorem shiftRight_bits (s b : Nat) (hs : s ≤ 8) (hb : b < 256) :
    (bitsOfByte (b >>> s)).drop s = (bitsOfByte b).take (8 - s) := by
  have hsh : b >>> s = b / 2 ^ s := Nat.shiftRight_eq_div_pow b s
  have hlt : b / 2 ^ s < 2 ^ (8 - s) := by
    apply Nat.div_lt_of_lt_mul
    calc b < 256 := hb
      _ = 2 ^ s * 2 ^ (8 - s) := by rw [← pow_add, show s + (8 - s) = 8 from by omega]; norm_num
  apply natOfBits_inj
  · simp [length_bitsOfByte]
  · rw [natOfBits_drop _ _, natOfBits_take _ _, length_bitsOfByte, length_bitsOfByte,
      natOfBits_bitsOfByte _ (by rw [hsh]; exact Nat.lt_of_le_of_lt (Nat.div_le_self _ _) hb),
      natOfBits_bitsOfByte _ hb, hsh,
      show (8 : Nat) - (8 - s) = s from by omega,
      Nat.mod_eq_of_lt hlt]

/-- Bits of `(b << k) % 256` (the last byte of `shift_bytes_left`). -/
theorem shiftLast_bits (k b : Nat) (hk : k ≤ 8) (hb : b < 256) :
    bitsOfByte ((b <<< k) % 256) = (bitsOfByte b).drop k ++ List.replicate k false := by
  have hv : (b <<< k) % 256 = (b % 2 ^ (8 - k)) * 2 ^ k := by
    rw [Nat.shiftLeft_eq, show (256 : Nat) = 2 ^ (8 - k) * 2 ^ k from by
      rw [← pow_add, show 8 - k + k = 8 from by omega]; norm_num,
      Nat.mul_mod_mul_right]
  have hblt : (b % 2 ^ (8 - k)) * 2 ^ k < 256 := by
    calc (b % 2 ^ (8 - k)) * 2 ^ k < 2 ^ (8 - k) * 2 ^ k :=
        mul_lt_mul_of_pos_right (Nat.mod_lt _ (Nat.pos_pow_of_pos _ (by norm_num)))
          (Nat.pos_pow_of_pos _ (by norm_num))
      _ = 256 := by rw [← pow_add, show 8 - k + k = 8 from by omega]; norm_num
  apply natOfBits_inj
  · simp [length_bitsOfByte] <;> omega
  · rw [natOfBits_bitsOfByte _ (by rw [hv]; exact hblt),
      natOfBits_append, natOfBits_drop _ _, length_bitsOfByte,
      natOfBits_bitsOfByte _ hb, natOfBits_replicate_false, List.length_replicate, hv,
      Nat.add_zero]

/-- Bits of `(b << k) % 256 | (c >> (8 - k))` (an interior byte of
`shift_bytes_left`). -/
theorem shiftPair_bits (k b c : Nat) (hk : k ≤ 7) (hb : b < 256) (hc : c < 256) :
    bitsOfByte (((b <<< k) % 256) ||| (c >>> (8 - k))) =
      (bitsOfByte b).drop k ++ (bitsOfByte c).take k := by
  have hv : (b <<< k) % 256 = (b % 2 ^ (8 - k)) * 2 ^ k := by
    rw [Nat.shiftLeft_eq, show (256 : Nat) = 2 ^ (8 - k) * 2 ^ k from by
      rw [← pow_add, show 8 - k + k = 8 from by omega]; norm_num,
      Nat.mul_mod_mul_right]
  have hcs : c >>> (8 - k) = c / 2 ^ (8 - k) := Nat.shiftRight_eq_div_pow c (8 - k)
  have hlo : c / 2 ^ (8 - k) < 2 ^ k := by
    apply Nat.div_lt_of_lt_mul
    calc c < 256 := hc
      _ = 2 ^ (8 - k) * 2 ^ k := by rw [← pow_add, show 8 - k + k = 8 from by omega]; norm_num
  have hmod : (b % 2 ^ (8 - k)) * 2 ^ k % 2 ^ k = 0 := Nat.mul_mod_left _ _
  have hblt : (b % 2 ^ (8 - k)) * 2 ^ k < 256 := by
    calc (b % 2 ^ (8 - k)) * 2 ^ k < 2 ^ (8 - k) * 2 ^ k :=
        mul_lt_mul_of_pos_right (Nat.mod_lt _ (Nat.pos_pow_of_pos _ (by norm_num)))
          (Nat.pos_pow_of_pos _ (by norm_num))
      _ = 256 := by rw [← pow_add, show 8 - k + k = 8 from by omega]; norm_num
  have hor : ((b <<< k) % 256) ||| (c >>> (8 - k)) =
      (b % 2 ^ (8 - k)) * 2 ^ k + c / 2 ^ (8 - k) := by
    rw [hv, hcs]
    exact lor_disjoint k _ _ hmod hlo
  have hsum : (b % 2 ^ (8 - k)) * 2 ^ k + c / 2 ^ (8 - k) < 256 := by
    calc (b % 2 ^ (8 - k)) * 2 ^ k + c / 2 ^ (8 - k)
        < (b % 2 ^ (8 - k)) * 2 ^ k + 2 ^ k := by omega
      _ = (b % 2 ^ (8 - k) + 1) * 2 ^ k := by ring
      _ ≤ 2 ^ (8 - k) * 2 ^ k := Nat.mul_le_mul_right _
          (Nat.mod_lt _ (Nat.pos_pow_of_pos _ (by norm_num)))
      _ = 256 := by rw [← pow_add, show 8 - k + k = 8 from by omega]; norm_num
  apply natOfBits_inj
  · simp [length_bitsOfByte] <;> omega
  · rw [natOfBits_bitsOfByte _ (by rw [hor]; exact hsum), hor,
      natOfBits_append, natOfBits_drop _ _, natOfBits_take _ _, length_bitsOfByte,
      length_bitsOfByte, natOfBits_bitsOfByte _ hb, natOfBits_bitsOfByte _ hc,
      show ((bitsOfByte c).take k).length = k from by simp [length_bitsOfByte]; omega]

/-- A byte whose low `k` bits are zero is unchanged by the
`0xFF << k` mask. -/
theorem maskTop (k b : Nat) (hk : k ≤ 8) (hb : b < 256) (hmod : b % 2 ^ k = 0) :
    b &&& ((255 <<< k) % 256) = b := by
  apply Nat.eq_of_testBit_eq
  intro i
  rw [shiftLeft_255_mod k hk]
  simp only [Nat.testBit_and, Nat.testBit_shiftLeft, Nat.testBit_two_pow_sub_one]
  by_cases h1 : i < k
  · have hd : decide (k ≤ i) = false := decide_eq_false (by omega)
    simp [testBit_false_of_mod b k i hmod h1, hd]
  · by_cases h2 : i < 8
    · have hd1 : decide (k ≤ i) = true := decide_eq_true (by omega)
      have hd2 : decide (i - k < 8 - k) = true := decide_eq_true (by omega)
      simp [hd1, hd2]
    · have hd : b.testBit i = false := testBit_false_of_lt_256 b i hb (by omega)
      simp [hd]

/-! ## `shift_bytes_left` and `Encoder.append` semantics -/

theorem getLastD_cons_ne (x d : Nat) (l : List Nat) (h : l ≠ []) :
    (x :: l).getLastD d = l.getLastD d := by
  cases l with
  | nil => exact absurd rfl h
  | cons y t => rfl

theorem getLastD_append (l1 l2 : List Nat) (h : l2 ≠ []) :
    (l1 ++ l2).getLastD 0 = l2.getLastD 0 := by
  induction l1 with
  | nil => rfl
  | cons x t ih =>
    rw [List.cons_append, getLastD_cons_ne x 0 (t ++ l2)
      (by intro habs; exact h (List.append_eq_nil.mp habs).2), ih]

theorem getLastD_mem (l : List Nat) (h : l ≠ []) : l.getLastD 0 ∈ l := by
  induction l with
  | nil => exact absurd rfl h
  | cons x t ih =>
    cases t with
    | nil => show x ∈ [x]; simp
    | cons y r =>
      rw [getLastD_cons_ne x 0 (y :: r) (by simp)]
      exact List.mem_cons_of_mem x (ih (by simp))

theorem dropLast_append_getLastD (l : List Nat) (h : l ≠ []) :
    l.dropLast ++ [l.getLastD 0] = l := by
  induction l with
  | nil => exact absurd rfl h
  | cons x t ih =>
    cases t with
    | nil => rfl
    | cons y r =>
      show x :: ((y :: r).dropLast ++ [(y :: r).getLastD 0]) = x :: y :: r
      rw [ih (by simp)]

theorem shiftBytesLeft_length (bs : List Nat) (k : Nat) :
    (shiftBytesLeft bs k).length = bs.length := by
  induction bs with
  | nil => rfl
  | cons b t ih =>
    cases t with
    | nil => rfl
    | cons c r =>
      show ((((b <<< k) % 256) ||| (c >>> (8 - k))) :: shiftBytesLeft (c :: r) k).length
        = (b :: c :: r).length
      rw [List.length_cons, List.length_cons, ih]

theorem shiftBytesLeft_lt (bs : List Nat) (k : Nat) (hb : ∀ b ∈ bs, b < 256) :
    ∀ b ∈ shiftBytesLeft bs k, b < 256 := by
  induction bs with
  | nil => intro b hmem; cases hmem
  | cons b t ih =>
    cases t with
    | nil =>
      intro x hmem
      rw [show shiftBytesLeft [b] k = [(b <<< k) % 256] from rfl, List.mem_singleton] at hmem
      rw [hmem]
      exact Nat.mod_lt _ (by norm_num)
    | cons c r =>
      intro x hmem
      rw [show shiftBytesLeft (b :: c :: r) k =
          (((b <<< k) % 256) ||| (c >>> (8 - k))) :: shiftBytesLeft (c :: r) k from rfl,
        List.mem_cons] at hmem
      cases hmem with
      | inl hx =>
        rw [hx]
        have h1 : (b <<< k) % 256 < 256 := Nat.mod_lt _ (by norm_num)
        have h2 : c >>> (8 - k) < 256 := by
          rw [Nat.shiftRight_eq_div_pow]
          exact Nat.lt_of_le_of_lt (Nat.div_le_self _ _) (hb c (by simp))
        have h256 : (256 : Nat) = 2 ^ 8 := by norm_num
        rw [h256] at h1 h2 ⊢
        exact Nat.or_lt_two_pow h1 h2
      | inr hx => exact ih (fun y hy => hb y (List.mem_cons_of_mem b hy)) x hx

/-- Bit semantics of `shift_bytes_left`: the stream loses its first `k` bits
and gains `k` zero bits at the end. -/
theorem shiftBytesLeft_bits (k : Nat) (hk : k ≤ 7) :
    ∀ bs : List Nat, bs ≠ [] → (∀ b ∈ bs, b < 256) →
    bytesBits (shiftBytesLeft bs k) = (bytesBits bs).drop k ++ List.replicate k false := by
  intro bs
  induction bs with
  | nil => intro h _; exact absurd rfl h
  | cons b t ih =>
    intro _ hlt
    cases t with
    | nil =>
      show bytesBits [(b <<< k) % 256] = (bytesBits [b]).drop k ++ List.replicate k false
      rw [bytesBits_cons, bytesBits_nil, List.append_nil, bytesBits_cons, bytesBits_nil,
        List.append_nil, shiftLast_bits k b (by omega) (hlt b (by simp))]
    | cons c r =>
      show bytesBits ((((b <<< k) % 256) ||| (c >>> (8 - k))) :: shiftBytesLeft (c :: r) k)
        = (bytesBits (b :: c :: r)).drop k ++ List.replicate k false
      rw [bytesBits_cons,
        shiftPair_bits k b c hk (hlt b (by simp)) (hlt c (by simp)),
        ih (by simp) (fun y hy => hlt y (List.mem_cons_of_mem b hy))]
      have h1 : (bytesBits (c :: r)).take k = (bitsOfByte c).take k := by
        rw [bytesBits_cons, List.take_append_eq_append_take,
          show k - (bitsOfByte c).length = 0 from by rw [length_bitsOfByte]; omega,
          List.take_zero, List.append_nil]
      calc ((bitsOfByte b).drop k ++ (bitsOfByte c).take k)
            ++ ((bytesBits (c :: r)).drop k ++ List.replicate k false)
          = ((bitsOfByte b).drop k ++ ((bitsOfByte c).take k ++ (bytesBits (c :: r)).drop k))
              ++ List.replicate k false := by simp [List.append_assoc]
        _ = ((bitsOfByte b).drop k
              ++ ((bytesBits (c :: r)).take k ++ (bytesBits (c :: r)).drop k))
              ++ List.replicate k false := by rw [h1]
        _ = ((bitsOfByte b).drop k ++ bytesBits (c :: r)) ++ List.replicate k false := by
              rw [List.take_append_drop]
        _ = (bytesBits (b :: c :: r)).drop k ++ List.replicate k false := by
              rw [show bytesBits (b :: c :: r) = bitsOfByte b ++ bytesBits (c :: r) from
                  bytesBits_cons b (c :: r),
                List.drop_append_eq_append_drop,
                show k - (bitsOfByte b).length = 0 from by rw [length_bitsOfByte]; omega,
                List.drop_zero]

theorem shiftBytesLeft_getLastD (k : Nat) :
    ∀ bs : List Nat, bs ≠ [] →
    (shiftBytesLeft bs k).getLastD 0 = ((bs.getLastD 0) <<< k) % 256 := by
  intro bs
  induction bs with
  | nil => intro h; exact absurd rfl h
  | cons b t ih =>
    intro _
    cases t with
    | nil => rfl
    | cons c r =>
      show ((((b <<< k) % 256) ||| (c >>> (8 - k))) :: shiftBytesLeft (c :: r) k).getLastD 0
        = (((b :: c :: r).getLastD 0) <<< k) % 256
      rw [getLastD_cons_ne _ _ _ (by
          intro habs
          have hl := shiftBytesLeft_length (c :: r) k
          rw [habs] at hl
          simp at hl),
        ih (by simp)]
      rfl

theorem shiftLast_mod (k b : Nat) (hk : k ≤ 8) : ((b <<< k) % 256) % 2 ^ k = 0 := by
  rw [Nat.shiftLeft_eq, show (256 : Nat) = 2 ^ (8 - k) * 2 ^ k from by
      rw [← pow_add, show 8 - k + k = 8 from by omega]; norm_num,
    Nat.mul_mod_mul_right, Nat.mul_mod_left]

theorem or_mod_two_pow (k a b : Nat) (ha : a % 2 ^ k = 0) (hb : b % 2 ^ k = 0) :
    (a ||| b) % 2 ^ k = 0 := by
  rw [← Nat.and_pow_two_sub_one_eq_mod]
  apply Nat.eq_of_testBit_eq
  intro i
  simp only [Nat.testBit_and, Nat.testBit_or, Nat.zero_testBit, Nat.testBit_two_pow_sub_one]
  by_cases hi : i < k
  · simp [testBit_false_of_mod a k i ha hi, testBit_false_of_mod b k i hb hi]
  · simp [hi]

/-- Splitting the bit string of a non-empty encoder at its final byte. -/
theorem encoderBits_split (e : Encoder) (hne : e.bytes ≠ []) (hrp : e.rPadding ≤ 8) :
    encoderBits e = bytesBits e.bytes.dropLast
      ++ (bitsOfByte (e.bytes.getLastD 0)).take (8 - e.rPadding) := by
  unfold encoderBits
  conv_lhs => rw [← dropLast_append_getLastD e.bytes hne]
  have hlen1 : (bytesBits e.bytes.dropLast).length ≤
      8 * (e.bytes.dropLast ++ [e.bytes.getLastD 0]).length - e.rPadding := by
    rw [length_bytesBits]
    simp only [List.length_append, List.length_cons, List.length_nil]
    omega
  rw [bytesBits_append, List.take_append_eq_append_take, List.take_of_length_le hlen1,
    length_bytesBits,
    show 8 * (e.bytes.dropLast ++ [e.bytes.getLastD 0]).length - e.rPadding
        - 8 * e.bytes.dropLast.length = 8 - e.rPadding from by
      simp only [List.length_append, List.length_cons, List.length_nil]
      omega,
    bytesBits_cons, bytesBits_nil, List.append_nil]

/-- The bit string of an encoder `⟨L ++ [nl], rp⟩`. -/
theorem encoderBits_snoc (L : List Nat) (nl rp : Nat) (hrp : rp ≤ 8) :
    encoderBits ⟨L ++ [nl], rp⟩ = bytesBits L ++ (bitsOfByte nl).take (8 - rp) := by
  have h := encoderBits_split ⟨L ++ [nl], rp⟩ (by simp) hrp
  rw [h]
  show bytesBits (L ++ [nl]).dropLast ++ (bitsOfByte ((L ++ [nl]).getLastD 0)).take (8 - rp) = _
  rw [List.dropLast_concat,
    show (L ++ [nl]).getLastD 0 = nl from by rw [getLastD_append L [nl] (by simp)]; rfl]

/-- The bit string of an encoder `⟨L ++ ([nl] ++ S), rp⟩` when the padding
fits in the final block `S`. -/
theorem encoderBits_concat_last (L : List Nat) (nl : Nat) (S : List Nat) (rp : Nat)
    (hrp : rp ≤ 8 * S.length) :
    encoderBits ⟨L ++ ([nl] ++ S), rp⟩
      = bytesBits L ++ (bitsOfByte nl ++ (bytesBits S).take (8 * S.length - rp)) := by
  show (bytesBits (L ++ ([nl] ++ S))).take (8 * (L ++ ([nl] ++ S)).length - rp) = _
  rw [bytesBits_append, bytesBits_append, bytesBits_cons, bytesBits_nil, List.append_nil,
    show (L ++ ([nl] ++ S)).length = L.length + (1 + S.length) from by simp; omega,
    List.take_append_eq_append_take,
    List.take_of_length_le (show (bytesBits L).length ≤ 8 * (L.length + (1 + S.length)) - rp
      from by rw [length_bytesBits]; omega),
    length_bytesBits,
    show 8 * (L.length + (1 + S.length)) - rp - 8 * L.length = 8 + (8 * S.length - rp)
      from by omega,
    List.take_append_eq_append_take,
    List.take_of_length_le (show (bitsOfByte nl).length ≤ 8 + (8 * S.length - rp)
      from by rw [length_bitsOfByte]; omega),
    length_bitsOfByte,
    show 8 + (8 * S.length - rp) - 8 = 8 * S.length - rp from by omega]

theorem bytesBits_take_first (c : Nat) (t : List Nat) (k : Nat) (hk : k ≤ 8) :
    (bytesBits (c :: t)).take k = (bitsOfByte c).take k := by
  rw [bytesBits_cons, List.take_append_eq_append_take,
    show k - (bitsOfByte c).length = 0 from by rw [length_bitsOfByte]; omega,
    List.take_zero, List.append_nil]

theorem bytesBits_head_split (c : Nat) (t : List Nat) (k : Nat) (hk : k ≤ 8) :
    bytesBits (c :: t) = (bitsOfByte c).take k ++ (bytesBits (c :: t)).drop k := by
  conv_lhs => rw [← List.take_append_drop k (bytesBits (c :: t))]
  rw [bytesBits_take_first c t k hk]

/-! ## C3: `Encoder.append` -/

/-- **C3** (corrected): the claim that `Encoder::append` always concatenates
the two bit strings is false — when both encoders have partial tail bytes the
mask/shift/remove logic drops bits (see the counterexample).  Corrected
statement: for encoders satisfying the invariant, `append` concatenates the
bit strings and preserves the invariant whenever either side is empty, or
`self.r_padding = 0`, or `other.r_padding = 0`, or `other` is a single byte
whose used bits fit in the free low bits of `self`'s tail byte
(`8 - other.r_padding ≤ self.r_padding`). -/
theorem c3_append_bits (e o : Encoder) (he : EncInv e) (ho : EncInv o)
    (hgood : e.bytes = [] ∨ o.bytes = [] ∨ e.rPadding = 0 ∨ o.rPadding = 0 ∨
      (o.bytes.length = 1 ∧ 8 - o.rPadding ≤ e.rPadding)) :
    encoderBits (e.append o) = encoderBits e ++ encoderBits o ∧ EncInv (e.append o) := by
  obtain ⟨herp, heb, hel⟩ := he
  obtain ⟨horp, hob, hol⟩ := ho
  by_cases hA : e.bytes = []
  · have happ : e.append o = ⟨o.bytes, o.rPadding⟩ := by
      simp only [Encoder.append]
      rw [if_pos (by simp [hA])]
    refine ⟨?_, ?_⟩
    · have hE0 : encoderBits e = [] := by simp [encoderBits, hA]
      rw [happ, hE0, List.nil_append]
    · rw [happ]; exact ⟨horp, hob, hol⟩
  · by_cases hB : o.bytes = []
    · have happ : e.append o = e := by
        simp only [Encoder.append]
        rw [if_neg (by simpa [List.length_eq_zero] using hA), if_pos (by simp [hB])]
      refine ⟨?_, ?_⟩
      · have hO0 : encoderBits o = [] := by simp [encoderBits, hB]
        rw [happ, hO0, List.append_nil]
      · rw [happ]; exact ⟨herp, heb, hel⟩
    · by_cases hC : e.rPadding = 0
      · have happ : e.append o = ⟨e.bytes ++ o.bytes, o.rPadding⟩ := by
          simp only [Encoder.append]
          rw [if_neg (by simpa [List.length_eq_zero] using hA),
            if_neg (by simpa [List.length_eq_zero] using hB),
            if_neg (by omega)]
        have hOlen : 1 ≤ o.bytes.length := List.length_pos.mpr hB
        refine ⟨?_, ?_⟩
        · rw [happ]
          show (bytesBits (e.bytes ++ o.bytes)).take
              (8 * (e.bytes ++ o.bytes).length - o.rPadding) = _
          rw [bytesBits_append, List.take_append_eq_append_take,
            List.take_of_length_le (show (bytesBits e.bytes).length
                ≤ 8 * (e.bytes ++ o.bytes).length - o.rPadding from by
              rw [length_bytesBits, List.length_append]; omega),
            length_bytesBits,
            show 8 * (e.bytes ++ o.bytes).length - o.rPadding - 8 * e.bytes.length
                = 8 * o.bytes.length - o.rPadding from by rw [List.length_append]; omega]
          have hEfull : encoderBits e = bytesBits e.bytes := by
            unfold encoderBits
            rw [hC, Nat.sub_zero]
            exact List.take_of_length_le (le_of_eq (length_bytesBits _))
          rw [hEfull]
          rfl
        · rw [happ]
          refine ⟨horp, ?_, ?_⟩
          · intro y hy
            rcases List.mem_append.mp hy with h | h
            · exact heb y h
            · exact hob y h
          · rw [getLastD_append _ _ hB]
            exact hol
      · have hrp : 0 < e.rPadding := Nat.pos_of_ne_zero hC
        rcases hgood with h | h | h | hD | hE1
        · exact absurd h hA
        · exact absurd h hB
        · exact absurd h hC
        · -- `o.rPadding = 0`: the whole of `other` is shifted in, nothing dropped
          obtain ⟨c, t, hO⟩ : ∃ c t, o.bytes = c :: t := by
            cases hOb : o.bytes with
            | nil => exact absurd hOb hB
            | cons c t => exact ⟨c, t, rfl⟩
          have hc : c < 256 := hob c (by rw [hO]; simp)
          have hx : e.bytes.getLastD 0 < 256 := heb _ (getLastD_mem _ hA)
          have hy : c >>> (8 - e.rPadding) < 2 ^ e.rPadding := by
            rw [Nat.shiftRight_eq_div_pow]
            apply Nat.div_lt_of_lt_mul
            calc c < 256 := hc
              _ = 2 ^ (8 - e.rPadding) * 2 ^ e.rPadding := by
                  rw [← pow_add, show 8 - e.rPadding + e.rPadding = 8 from by omega]
                  norm_num
          have hmerge : bitsOfByte (e.bytes.getLastD 0 ||| (c >>> (8 - e.rPadding)))
              = (bitsOfByte (e.bytes.getLastD 0)).take (8 - e.rPadding)
                ++ (bitsOfByte c).take e.rPadding := by
            rw [byteMerge e.rPadding _ _ (by omega) hx hel hy,
              shiftRight_bits (8 - e.rPadding) c (by omega) hc,
              show 8 - (8 - e.rPadding) = e.rPadding from by omega]
          have hcand : c &&& ((255 <<< o.rPadding) % 256) = c := by
            rw [hD]
            show c &&& 255 = c
            have h8 := Nat.and_pow_two_sub_one_eq_mod c 8
            norm_num at h8
            rw [h8, Nat.mod_eq_of_lt hc]
          have happ : e.append o = ⟨e.bytes.dropLast
              ++ ([e.bytes.getLastD 0 ||| (c >>> (8 - e.rPadding))]
                ++ shiftBytesLeft (c :: t) e.rPadding), e.rPadding⟩ := by
            simp only [Encoder.append]
            rw [if_neg (by simpa [List.length_eq_zero] using hA),
              if_neg (by simpa [List.length_eq_zero] using hB),
              if_pos hrp, if_neg (show ¬ (8 - o.rPadding ≤ e.rPadding) from by omega),
              hO]
            simp [hcand, List.append_assoc]
          have hshift := shiftBytesLeft_bits e.rPadding (by omega) (c :: t) (by simp)
            (by intro y hy2; exact hob y (by rw [hO]; exact hy2))
          have hR := encoderBits_split e hA (by omega)
          have hOfull : encoderBits o = bytesBits (c :: t) := by
            unfold encoderBits
            rw [hD, Nat.sub_zero, hO]
            exact List.take_of_length_le (le_of_eq (length_bytesBits _))
          refine ⟨?_, ?_⟩
          · rw [happ, encoderBits_concat_last _ _ _ _ (by
                rw [shiftBytesLeft_length]
                simp only [List.length_cons]
                omega),
              shiftBytesLeft_length, hshift,
              List.take_left' (show ((bytesBits (c :: t)).drop e.rPadding).length
                  = 8 * (c :: t).length - e.rPadding from by
                rw [List.length_drop, length_bytesBits]),
              hmerge, hR, hOfull]
            conv_rhs => rw [bytesBits_head_split c t e.rPadding (by omega)]
            simp [List.append_assoc]
          · rw [happ]
            refine ⟨herp, ?_, ?_⟩
            · intro y hy
              simp only [List.mem_append, List.mem_singleton] at hy
              rcases hy with h | h | h
              · exact heb y ((List.dropLast_sublist e.bytes).subset h)
              · rw [h]
                have h256 : (256 : Nat) = 2 ^ 8 := by norm_num
                have h2 : c >>> (8 - e.rPadding) < 256 := by
                  rw [Nat.shiftRight_eq_div_pow]
                  exact Nat.lt_of_le_of_lt (Nat.div_le_self _ _) hc
                rw [h256]
                rw [h256] at hx h2
                exact Nat.or_lt_two_pow hx h2
              · exact shiftBytesLeft_lt (c :: t) e.rPadding
                  (by intro y2 hy2; exact hob y2 (by rw [hO]; exact hy2)) y h
            · rw [getLastD_append _ _ (by simp),
                getLastD_append _ _ (by
                  intro habs
                  have hl := shiftBytesLeft_length (c :: t) e.rPadding
                  rw [habs] at hl
                  simp at hl),
                shiftBytesLeft_getLastD e.rPadding (c :: t) (by simp)]
              exact shiftLast_mod e.rPadding _ (by omega)
        · -- `other` is one byte fitting in the free bits of the tail byte
          obtain ⟨hOone, hfit⟩ := hE1
          obtain ⟨b0, hO⟩ : ∃ b0, o.bytes = [b0] := by
            cases hOb : o.bytes with
            | nil => exact absurd hOb hB
            | cons c t =>
              cases t with
              | nil => exact ⟨c, rfl⟩
              | cons d r => rw [hOb] at hOone; simp at hOone
          have hb0 : b0 < 256 := hob b0 (by rw [hO]; simp)
          have hx : e.bytes.getLastD 0 < 256 := heb _ (getLastD_mem _ hA)
          have hb0mod : b0 % 2 ^ o.rPadding = 0 := by
            rw [hO] at hol
            exact hol
          have hmask : b0 &&& ((255 <<< o.rPadding) % 256) = b0 :=
            maskTop o.rPadding b0 (by omega) hb0 hb0mod
          have hy : b0 >>> (8 - e.rPadding) < 2 ^ e.rPadding := by
            rw [Nat.shiftRight_eq_div_pow]
            apply Nat.div_lt_of_lt_mul
            calc b0 < 256 := hb0
              _ = 2 ^ (8 - e.rPadding) * 2 ^ e.rPadding := by
                  rw [← pow_add, show 8 - e.rPadding + e.rPadding = 8 from by omega]
                  norm_num
          have hmerge : bitsOfByte (e.bytes.getLastD 0 ||| (b0 >>> (8 - e.rPadding)))
              = (bitsOfByte (e.bytes.getLastD 0)).take (8 - e.rPadding)
                ++ (bitsOfByte b0).take e.rPadding := by
            rw [byteMerge e.rPadding _ _ (by omega) hx hel hy,
              shiftRight_bits (8 - e.rPadding) b0 (by omega) hb0,
              show 8 - (8 - e.rPadding) = e.rPadding from by omega]
          have happ : e.append o = ⟨e.bytes.dropLast
              ++ [e.bytes.getLastD 0 ||| (b0 >>> (8 - e.rPadding))],
              e.rPadding - (8 - o.rPadding)⟩ := by
            simp only [Encoder.append]
            rw [if_neg (by simpa [List.length_eq_zero] using hA),
              if_neg (by simpa [List.length_eq_zero] using hB),
              if_pos hrp, if_pos hfit, hO,
              show (shiftBytesLeft [b0] e.rPadding).tail = [] from rfl]
            simp [hmask]
          refine ⟨?_, ?_⟩
          · rw [happ, encoderBits_snoc _ _ _ (by omega), hmerge,
              show 8 - (e.rPadding - (8 - o.rPadding))
                  = (8 - e.rPadding) + (8 - o.rPadding) from by omega,
              List.take_append_eq_append_take,
              List.take_take,
              show min ((8 - e.rPadding) + (8 - o.rPadding)) (8 - e.rPadding)
                  = 8 - e.rPadding from by omega,
              show ((bitsOfByte (e.bytes.getLastD 0)).take (8 - e.rPadding)).length
                  = 8 - e.rPadding from by
                rw [List.length_take, length_bitsOfByte]; omega,
              show (8 - e.rPadding) + (8 - o.rPadding) - (8 - e.rPadding)
                  = 8 - o.rPadding from by omega,
              List.take_take,
              show min (8 - o.rPadding) e.rPadding = 8 - o.rPadding from by omega]
            have hR := encoderBits_split e hA (by omega)
            have hOsingle : encoderBits o = (bitsOfByte b0).take (8 - o.rPadding) := by
              unfold encoderBits
              rw [hO]
              simp [bytesBits_cons, bytesBits_nil]
            rw [hR, hOsingle, List.append_assoc]
          · rw [happ]
            refine ⟨show e.rPadding - (8 - o.rPadding) ≤ 7 from by omega, ?_, ?_⟩
            · intro y hy
              rcases List.mem_append.mp hy with h | h
              · exact heb y ((List.dropLast_sublist e.bytes).subset h)
              · rw [List.mem_singleton.mp h]
                have h256 : (256 : Nat) = 2 ^ 8 := by norm_num
                have h2 : b0 >>> (8 - e.rPadding) < 256 := by
                  rw [Nat.shiftRight_eq_div_pow]
                  exact Nat.lt_of_le_of_lt (Nat.div_le_self _ _) hb0
                rw [h256]
                rw [h256] at hx h2
                exact Nat.or_lt_two_pow hx h2
            · rw [getLastD_append _ _ (by simp)]
              show (e.bytes.getLastD 0 ||| (b0 >>> (8 - e.rPadding)))
                  % 2 ^ (e.rPadding - (8 - o.rPadding)) = 0
              have hxj : e.bytes.getLastD 0 % 2 ^ (e.rPadding - (8 - o.rPadding)) = 0 := by
                rw [← Nat.mod_mod_of_dvd _ (pow_dvd_pow 2
                    (show e.rPadding - (8 - o.rPadding) ≤ e.rPadding from by omega)),
                  hel, Nat.zero_mod]
              obtain ⟨m, hm⟩ := Nat.dvd_of_mod_eq_zero hb0mod
              have hyj : b0 >>> (8 - e.rPadding)
                  % 2 ^ (e.rPadding - (8 - o.rPadding)) = 0 := by
                rw [Nat.shiftRight_eq_div_pow, hm,
                  show (2 : Nat) ^ o.rPadding
                      = 2 ^ (8 - e.rPadding) * 2 ^ (e.rPadding - (8 - o.rPadding)) from by
                    rw [← pow_add]
                    congr 1
                    omega,
                  Nat.mul_assoc,
                  Nat.mul_div_cancel_left _ (Nat.pos_pow_of_pos _ (by norm_num)),
                  Nat.mul_mod_right]
              exact or_mod_two_pow _ _ _ hxj hyj

/-- **C3 counterexample**: both inputs satisfy the encoder invariant, yet
`⟨[0xA8], 3⟩.append ⟨[0xDC], 2⟩` yields `⟨[0xAE, 0xE0], 3⟩`, whose bit
string (13 bits) is not the concatenation of the inputs' bit strings
(5 + 6 = 11 bits): the claim fails as stated. -/
theorem c3_append_counterexample :
    EncInv ⟨[0xA8], 3⟩ ∧ EncInv ⟨[0xDC], 2⟩ ∧
      Encoder.append ⟨[0xA8], 3⟩ ⟨[0xDC], 2⟩ = ⟨[0xAE, 0xE0], 3⟩ ∧
      encoderBits (Encoder.append ⟨[0xA8], 3⟩ ⟨[0xDC], 2⟩)
        ≠ encoderBits ⟨[0xA8], 3⟩ ++ encoderBits ⟨[0xDC], 2⟩ ∧
      (encoderBits (Encoder.append ⟨[0xA8], 3⟩ ⟨[0xDC], 2⟩)).length
        ≠ (encoderBits ⟨[0xA8], 3⟩ ++ encoderBits ⟨[0xDC], 2⟩).length := by
  refine ⟨by decide, by decide, by decide, by decide, by decide⟩

/-- Witness for C3: a concrete instance in the single-fitting-byte case. -/
theorem c3_append_bits_witness :
    encoderBits (Encoder.append ⟨[0x80], 7⟩ ⟨[0xC0], 2⟩)
        = encoderBits ⟨[0x80], 7⟩ ++ encoderBits ⟨[0xC0], 2⟩ ∧
      EncInv (Encoder.append ⟨[0x80], 7⟩ ⟨[0xC0], 2⟩) :=
  c3_append_bits ⟨[0x80], 7⟩ ⟨[0xC0], 2⟩ (by decide) (by decide) (by decide)

/-! ## C1: `decode_length` -/

/-- **C1** (code bug): the claim says `decode_length` fails `NotImplemented`
exactly when the top two bits of the first octet are `11`, and that the long
form `10xxxxxx xxxxxxxx` decodes to `((octet1 & 0x3F) << 8) | octet2`.  The
code tests `val & LENGTH_DET_FRAG > 0`, which also fires when only one of
the two top bits is set: short-form inputs in `[0x40, 0x7F]` and every
long-form input are rejected with `NotImplemented`, and the long-form branch
of the source is unreachable.  This theorem evaluates the code at the
failing inputs `[0x40]` (claim: `Ok(64)`) and `[0x80, 0x2B]`
(claim: `Ok(43)`), and also records that a missing octet does map to
`MalformedLength` as the claim states. -/
theorem c1_decode_length_frag_check : (Decoder.new [0x40]).decodeLength = .error .notImplemented ∧
    (Decoder.new [0x80, 0x2B]).decodeLength = .error .notImplemented ∧
    (Decoder.new []).decodeLength = .error .malformedLength := by
  refine ⟨by decide, by decide, by decide⟩

/-! ## C5: `encode_length` -/

/-- **C5** (code bug): the claim says `encode_length(n)` fails
`NotImplemented` for every `n ≥ 16384`.  The code's long-form branch accepts
every `n < 65535` and masks the upper byte with `LENGTH_MASK_LONG = 0x3F`,
silently truncating `n ∈ [16384, 65534]`: `encode_length(16384)` yields the
bytes `[0x80, 0x00]` — the (intended) encoding of length 0 — and
`encode_length(65534)` yields `[0xBF, 0xFE]`; only `n ≥ 65535` is rejected. -/
theorem c5_encode_length_truncates : encodeLength 16384 = .ok ⟨[0x80, 0x00], 0⟩ ∧
    encodeLength 65534 = .ok ⟨[0xBF, 0xFE], 0⟩ ∧
    encodeLength 65535 = .error .notImplemented := by
  refine ⟨by decide, by decide, by decide⟩

/-! ## C7: unconstrained `encode_int` -/

/-- **C7** (code bug): the claim says the unconstrained path of `encode_int`
emits the minimum-length big-endian *two's-complement* octets of `v`
preceded by their count.  The code computes the width as
`(value as f64).log2().ceil()` and writes with the *unsigned*
`write_uint`: for `v = 255` it emits `[0x01, 0xFF]` (one octet), which the
decoder's signed `read_int` reads back as `-1`, whereas the two's-complement
encoding of 255 needs two octets (`[0x02, 0x00, 0xFF]`); and for any
`v ≤ 0` (e.g. `v = -1`), for `v = 1`, and for `v = 256` the `byteorder`
write assertion fails and the code panics instead of encoding. -/
theorem c7_encode_int_unconstrained : encodeInt 255 none none = .ok ⟨[0x01, 0xFF], 0⟩ ∧
    (Decoder.new [0x01, 0xFF]).decodeInt none none = .ok (-1) ⟨[0x01, 0xFF], 16⟩ ∧
    encodeInt (-1) none none = .panicked ∧
    encodeInt 1 none none = .panicked ∧
    encodeInt 256 none none = .panicked := by
  refine ⟨by decide, by decide, by decide, by decide, by decide⟩

/-! ## C10: unguarded length determinant in `decode_int` -/

/-- **C10** (confirmed): with `min` or `max` absent, `decode_int` passes the
decoded length determinant straight to `BigEndian::read_int`, whose domain
is `1..=8` octets: a determinant of `0` (input `[0x00]`) or of `9` (input
`[0x09]` followed by nine payload octets) makes the code panic instead of
returning a `DecodeError`; the `len > 8 → NotImplemented` guard exists only
in the fully-constrained path (last conjunct, `range = 2^32`). -/
theorem c10_decode_int_panics : (Decoder.new [0x00]).decodeInt none none = .panicked ∧
    (Decoder.new [0x09, 0, 0, 0, 0, 0, 0, 0, 0, 0]).decodeInt none none = .panicked ∧
    (Decoder.new [0x09, 0, 0, 0, 0, 0, 0, 0, 0, 0]).decodeInt (some 0) none = .panicked ∧
    (Decoder.new [0x09, 0, 0, 0, 0, 0, 0, 0, 0, 0]).decodeInt (some 0) (some (2 ^ 32 - 1))
      = .err .notImplemented := by
  refine ⟨by decide, by decide, by decide, by decide⟩

/-! ## C8: constrained integers narrower than one octet -/

/-- **C8** (confirmed): for `min ≤ v ≤ max` with
`n_bits = ceil(log2(max - min + 1)) < 8`, `encode_int` produces the single
byte `(v - min) << (8 - n_bits)` with `r_padding = 8 - n_bits`, and
`decode_int(min, max)` on that byte reads `n_bits` bits and returns `v`
(the final cursor sits at bit `n_bits`). -/
theorem c8_constrained_small (l h v : Int) (nb : Nat)
    (hnb : nb = ceilLog2 (h - l + 1).toNat) (hlv : l ≤ v) (hvh : v ≤ h) (hn : nb < 8) :
    encodeInt v (some l) (some h) = .ok ⟨[(v - l).toNat * 2 ^ (8 - nb)], 8 - nb⟩ ∧
    (Decoder.new [(v - l).toNat * 2 ^ (8 - nb)]).decodeInt (some l) (some h) =
      .ok v ⟨[(v - l).toNat * 2 ^ (8 - nb)], nb⟩ := by
  have hwv : ((v - l).toNat : Int) = v - l := Int.toNat_of_nonneg (by omega)
  have hrange : (h - l + 1).toNat ≤ 2 ^ nb := hnb ▸ ceilLog2_le_pow _ (by omega)
  have hwlt : (v - l).toNat < 2 ^ nb := by omega
  have hbpos : (0 : Nat) < 2 ^ (8 - nb) := Nat.pos_pow_of_pos _ (by norm_num)
  have hbyte : (v - l).toNat * 2 ^ (8 - nb) < 256 := by
    calc (v - l).toNat * 2 ^ (8 - nb) < 2 ^ nb * 2 ^ (8 - nb) :=
        mul_lt_mul_of_pos_right hwlt hbpos
      _ = 2 ^ 8 := by rw [← pow_add, show nb + (8 - nb) = 8 from by omega]
      _ ≤ 256 := by norm_num
  have h128 : (2 : Nat) ^ nb ≤ 128 := by
    calc (2 : Nat) ^ nb ≤ 2 ^ 7 := Nat.pow_le_pow_right (by norm_num) (by omega)
      _ = 128 := by norm_num
  have hvl256 : v - l < 256 := by omega
  constructor
  · simp only [encodeInt]
    rw [← hnb, if_pos hn]
    have hu8 : i64ToU8 (v - l) = (v - l).toNat := by
      unfold i64ToU8
      rw [Int.emod_eq_of_lt (by omega) (by omega)]
    rw [hu8, Nat.shiftLeft_eq, Nat.mod_eq_of_lt hbyte]
  · simp only [Decoder.decodeInt]
    rw [← hnb, if_pos hn]
    have hrs := read_spec (Decoder.new [(v - l).toNat * 2 ^ (8 - nb)]) nb (by omega)
      (Nat.zero_le _) (by intro b hb_; simp [Decoder.new] at hb_; omega)
    rw [if_neg (by show ¬(8 * 1 < 0 + nb); omega)] at hrs
    rw [hrs]
    have hval : natOfBits
        (((bytesBits (Decoder.new [(v - l).toNat * 2 ^ (8 - nb)]).data).drop
          (Decoder.new [(v - l).toNat * 2 ^ (8 - nb)]).pos).take nb) = (v - l).toNat := by
      show natOfBits ((bytesBits [(v - l).toNat * 2 ^ (8 - nb)]).take nb) = (v - l).toNat
      have hbb : bytesBits [(v - l).toNat * 2 ^ (8 - nb)] =
          bitsOfByte ((v - l).toNat * 2 ^ (8 - nb)) := by
        simp [bytesBits]
      rw [hbb, natOfBits_take _ nb, length_bitsOfByte, natOfBits_bitsOfByte _ hbyte]
      exact Nat.mul_div_cancel _ hbpos
    dsimp only
    rw [hval, hwv]
    have hfix : v - l + l = v := by ring
    rw [hfix]
    show DOut.ok v ⟨[(v - l).toNat * 2 ^ (8 - nb)], 0 + nb⟩ =
      DOut.ok v ⟨[(v - l).toNat * 2 ^ (8 - nb)], nb⟩
    rw [Nat.zero_add]

/-- Witness for C8 at the documented concrete input: `encode_int(501,
Some 500, Some 503)` is the byte `0x40` with 6 padding bits, and decoding
it returns 501. -/
theorem c8_constrained_small_witness :
    encodeInt 501 (some 500) (some 503) = .ok ⟨[0x40], 6⟩ ∧
      (Decoder.new [0x40]).decodeInt (some 500) (some 503) = .ok 501 ⟨[0x40], 2⟩ := by
  have h := c8_constrained_small 500 503 501 2 (by decide) (by norm_num) (by norm_num)
    (by norm_num)
  exact ⟨h.1, h.2⟩

/-! ## C2: `read_to_vec` -/

/-- **C2** (counterexample): the claim says a successful
`read_to_vec(out, len)` with `len > 0` advances the cursor by exactly `len`
bits.  With two zero bytes of input and `len = 9`, the call succeeds and
pushes `ceil(9/8) = 2` bytes, but the cursor lands on bit 15, not
`0 + 9 = 9`: the code rewinds by `len % 8` instead of `8 - len % 8`. -/
theorem c2_read_to_vec_cursor_counterexample :
    (Decoder.new [0, 0]).readToVec [] 9 = .ok ([0, 0], ⟨[0, 0], 15⟩) ∧ 15 ≠ 0 + 9 := by
  refine ⟨by decide, by decide⟩

/-- **C2** (amended): a successful `read_to_vec(content, len)` with
`len > 0` appends exactly `ceil(len/8)` bytes to `content`, and the cursor
afterwards sits at `pos + len` when `len < 8`, and at
`pos + 8 * ceil(len/8) - (len % 8)` otherwise — which equals `pos + len`
exactly when `len % 8` is `0` or `4`. -/
theorem c2_read_to_vec_gain (d : Decoder) (content : List Nat) (len : Nat)
    (out : List Nat) (d' : Decoder) (hlen : 0 < len)
    (h : d.readToVec content len = .ok (out, d')) :
    out.length = content.length + (len + 7) / 8 ∧ d'.data = d.data ∧
      d'.pos = (if len < 8 then d.pos + len else d.pos + 8 * ((len + 7) / 8) - len % 8) := by
  unfold Decoder.readToVec at h
  rw [if_neg (by omega)] at h
  split at h
  · cases h
  · split at h
    · next hlt =>
      cases hr : d.read len with
      | error e => rw [hr] at h; cases h
      | ok p =>
        obtain ⟨b, d1⟩ := p
        rw [hr] at h
        cases h
        have := Decoder.read_ok_dest hr
        subst this
        refine ⟨by simp; omega, rfl, by simp [hlt]⟩
    · next hge =>
      cases hr : Decoder.readBytesLoop ((len + 7) / 8) d content with
      | error e => rw [hr] at h; cases h
      | ok p =>
        obtain ⟨c, d1⟩ := p
        rw [hr] at h
        cases h
        obtain ⟨h1, h2, h3⟩ := Decoder.readBytesLoop_ok_dest _ _ _ _ _ hr
        refine ⟨h1, h2, ?_⟩
        rw [if_neg hge, h3]

/-- Witness for the amended C2 at a concrete input: reading 12 bits from
`[0xFF, 0xF3]` pushes 2 bytes and lands the cursor on bit 12. -/
theorem c2_read_to_vec_gain_witness :
    [(255 : Nat), 243].length = ([] : List Nat).length + (12 + 7) / 8 ∧
      ([255, 243] : List Nat) = [255, 243] ∧
      (12 : Nat) = (if 12 < 8 then 0 + 12 else 0 + 8 * ((12 + 7) / 8) - 12 % 8) := by
  have h := c2_read_to_vec_gain (Decoder.new [0xFF, 0xF3]) [] 12 [255, 243] ⟨[255, 243], 12⟩
    (by decide) (by decide)
  exact ⟨h.1, rfl, h.2.2⟩

end Asn1Aper
